import Mathlib

/-!
Verification development for the background-removal pixel pipeline of
`src/remove-grey-bg.js` (grey-background remover for plated-dish photos).

The raster buffer is modelled as a function `data : Nat → Nat` from byte
index to byte value (row-major pixels, `channels` bytes per pixel), and the
background mask as a function `Nat → Bool` from linear pixel index
(`idx = y * width + x`) to its mask bit, mirroring the JavaScript
`Uint8Array`s.  JavaScript number arithmetic on pixel data is exact integer
arithmetic in the ranges used here.  The source's few floating-point
computations are divisions of small integers compared against constants;
each is modelled by the equivalent exact integer comparison, justified at
the definition:
* `(r+g+b)/3 <= 185` (and `> 160`): the IEEE-double quotient of integers
  `s ≤ 765` by 3 is correctly rounded within `2⁻⁴⁵`, while `s/3` is never
  strictly between that bound and the integer threshold, so the double test
  equals the exact test `s ≤ 555` (resp. `s > 480`).
* `transparent/total > 0.45` with `total ≤ 113`: the nearest rational with
  denominator at most 113 on either side of `9/20` is at distance
  `≥ 1/(20·113)`, far above double rounding error, and at exactly `9/20`
  both the double quotient and the double literal `0.45` round to the same
  double, so the test equals the exact test `100·transparent > 45·total`.
* `Math.sqrt(dx*dx+dy*dy)` for the feather radius 2: the squared distance
  determines the result on its six-element domain, see `featherAlpha`.
-/

/-- Translation of `isGreyPixel` (src/remove-grey-bg.js:26-33): channel
spread `max(|r-g|, |g-b|, |r-b|)` below 50 and brightness `(r+g+b)/3` at
most 185, the latter modelled exactly as `r+g+b ≤ 555` (see the file
header on floating point). -/
def isGreyPixel (r g b : Nat) : Bool :=
  let maxDiff := max (max ((r : Int) - (g : Int)).natAbs ((g : Int) - (b : Int)).natAbs)
      ((r : Int) - (b : Int)).natAbs
  decide (maxDiff < 50) && decide (r + g + b ≤ 555)

/-- The classifier contract in the words of the specification: a pixel is
background iff its channel spread is below the fixed chroma-balance
threshold 50 and its average brightness `(r+g+b)/3` (an exact rational
here) is at or below the ceiling 185. -/
def specGreyClassifier (r g b : Nat) : Prop :=
  max (max ((r : Int) - (g : Int)).natAbs ((g : Int) - (b : Int)).natAbs)
      ((r : Int) - (b : Int)).natAbs < 50 ∧
  ((r : ℚ) + (g : ℚ) + (b : ℚ)) / 3 ≤ 185

/-- The classifier value of pixel `idx` of the raster buffer. -/
def greyAt (data : Nat → Nat) (channels idx : Nat) : Bool :=
  isGreyPixel (data (idx * channels)) (data (idx * channels + 1)) (data (idx * channels + 2))

/-- C2: for all channel values in [0,255], `isGreyPixel` returns true iff
the channel spread `max(|r-g|, |g-b|, |r-b|)` is below the chroma-balance
threshold 50 and the average brightness `(r+g+b)/3` is at or below the
ceiling 185.  (Purity and freedom from side effects hold by construction:
the embedding is a total function of exactly its three arguments.)  The
bound 255 on the channel values carries over from the byte-valued buffer;
the equivalence in fact holds for all natural numbers. -/
theorem isGreyPixel_spec (r g b : Nat) (hr : r ≤ 255) (hg : g ≤ 255) (hb : b ≤ 255) :
    isGreyPixel r g b = true ↔ specGreyClassifier r g b := by
  unfold isGreyPixel specGreyClassifier
  simp only [Bool.and_eq_true, decide_eq_true_iff]
  constructor
  · rintro ⟨h1, h2⟩
    refine ⟨h1, ?_⟩
    rw [div_le_iff (by norm_num : (0:ℚ) < 3)]
    have : ((r : ℚ) + g + b) = ((r + g + b : Nat) : ℚ) := by push_cast; ring
    rw [this]
    have : (185 : ℚ) * 3 = ((555 : Nat) : ℚ) := by norm_num
    rw [this]
    exact_mod_cast h2
  · rintro ⟨h1, h2⟩
    refine ⟨h1, ?_⟩
    rw [div_le_iff (by norm_num : (0:ℚ) < 3)] at h2
    have h3 : ((r + g + b : Nat) : ℚ) ≤ ((555 : Nat) : ℚ) := by push_cast at h2 ⊢; linarith
    exact_mod_cast h3

/-- Witness for `isGreyPixel_spec` at the target backdrop colour #707070. -/
theorem isGreyPixel_spec_witness :
    (112 ≤ 255 ∧ (isGreyPixel 112 112 112 = true ↔ specGreyClassifier 112 112 112)) ∧
      isGreyPixel 112 112 112 = true :=
  ⟨⟨by decide, isGreyPixel_spec 112 112 112 (by decide) (by decide) (by decide)⟩, by decide⟩

/-- The 4-connected neighbour pushes of pixel `idx`, exactly as generated at
src/remove-grey-bg.js:70-74 (and identically at lines 150-154): left when
`x > 0`, right when `x < width-1`, up when `y > 0`, down when `y < height-1`,
with `x = idx % width` and `y = idx / width`. -/
def nbrs (w h idx : Nat) : List Nat :=
  let x := idx % w
  let y := idx / w
  (if 0 < x then [idx - 1] else []) ++ (if x < w - 1 then [idx + 1] else []) ++
    ((if 0 < y then [idx - w] else []) ++ (if y < h - 1 then [idx + w] else []))

lemma mem_ite_singleton {c : Prop} [Decidable c] {a j : Nat} :
    (j ∈ if c then [a] else ([] : List Nat)) ↔ c ∧ j = a := by
  by_cases h : c <;> simp [h]

lemma coords_mod_div {w x : Nat} (y : Nat) (hx : x < w) :
    (y * w + x) % w = x ∧ (y * w + x) / w = y := by
  have hw : 0 < w := lt_of_le_of_lt (Nat.zero_le x) hx
  constructor
  · rw [Nat.add_comm, Nat.add_mul_mod_self_right, Nat.mod_eq_of_lt hx]
  · rw [Nat.add_comm, Nat.add_mul_div_right _ _ hw, Nat.div_eq_of_lt hx, Nat.zero_add]

/-- Every in-range pixel index decomposes into column and row coordinates. -/
lemma exists_coords {w h idx : Nat} (hidx : idx < w * h) :
    ∃ x y, x < w ∧ y < h ∧ idx = y * w + x := by
  have hw : 0 < w := by
    rcases Nat.eq_zero_or_pos w with h0 | h0
    · subst h0; simp at hidx
    · exact h0
  refine ⟨idx % w, idx / w, Nat.mod_lt _ hw, ?_, ?_⟩
  · rw [Nat.div_lt_iff_lt_mul hw]
    exact lt_of_lt_of_eq hidx (Nat.mul_comm w h)
  · have hmd := Nat.mod_add_div' idx w
    rw [Nat.add_comm] at hmd
    exact hmd.symm

/-- Membership in the neighbour list, in coordinates. -/
lemma mem_nbrs_coords {w h x y j : Nat} (hx : x < w) (hy : y < h) :
    j ∈ nbrs w h (y * w + x) ↔
      (0 < x ∧ j + 1 = y * w + x) ∨ (x + 1 < w ∧ j = y * w + x + 1) ∨
      (0 < y ∧ j + w = y * w + x) ∨ (y + 1 < h ∧ j = y * w + x + w) := by
  obtain ⟨hm, hd⟩ := coords_mod_div y hx
  simp only [nbrs, hm, hd, List.mem_append, mem_ite_singleton]
  have hp : y = 0 ∨ w ≤ y * w := by
    rcases Nat.eq_zero_or_pos y with h0 | h0
    · exact Or.inl h0
    · exact Or.inr (Nat.le_mul_of_pos_left w h0)
  rcases hp with hp | hp
  · subst hp; omega
  · omega

lemma nbrs_lt {w h idx j : Nat} (hidx : idx < w * h) (hj : j ∈ nbrs w h idx) :
    j < w * h := by
  obtain ⟨x, y, hx, hy, he⟩ := exists_coords hidx
  rw [he] at hj
  rw [mem_nbrs_coords hx hy] at hj
  have h1 : (y + 1) * w ≤ h * w := Nat.mul_le_mul_right w hy
  have h2 : (y + 1) * w = y * w + w := Nat.succ_mul y w
  have h3 : h * w = w * h := Nat.mul_comm h w
  rcases hj with ⟨hc, hv⟩ | ⟨hc, hv⟩ | ⟨hc, hv⟩ | ⟨hc, hv⟩
  · omega
  · omega
  · omega
  · have h4 : (y + 2) * w ≤ h * w := Nat.mul_le_mul_right w (by omega)
    have h5 : (y + 2) * w = y * w + w + w := by ring
    omega

lemma nbrs_symm {w h idx j : Nat} (hidx : idx < w * h) (hj : j ∈ nbrs w h idx) :
    idx ∈ nbrs w h j := by
  obtain ⟨x, y, hx, hy, he⟩ := exists_coords hidx
  subst he
  rw [mem_nbrs_coords hx hy] at hj
  rcases hj with ⟨hc, hv⟩ | ⟨hc, hv⟩ | ⟨hc, hv⟩ | ⟨hc, hv⟩
  · have hj2 : j = y * w + (x - 1) := by omega
    subst hj2
    rw [mem_nbrs_coords (by omega : x - 1 < w) hy]
    refine Or.inr (Or.inl ⟨by omega, by omega⟩)
  · subst hv
    have heq : y * w + x + 1 = y * w + (x + 1) := Nat.add_assoc _ _ _
    rw [heq, mem_nbrs_coords (show x + 1 < w by omega) hy]
    exact Or.inl ⟨by omega, by omega⟩
  · have hmul : y * w = (y - 1) * w + w := by
      rcases Nat.exists_eq_add_of_le (show 1 ≤ y by omega) with ⟨k, hk⟩
      subst hk
      simp [Nat.add_mul, Nat.add_comm]
    have hj2 : j = (y - 1) * w + x := by omega
    subst hj2
    rw [mem_nbrs_coords hx (show y - 1 < h by omega)]
    refine Or.inr (Or.inr (Or.inr ⟨by omega, by omega⟩))
  · have hmul : (y + 1) * w = y * w + w := Nat.succ_mul y w
    have hj2 : j = (y + 1) * w + x := by omega
    subst hj2
    rw [mem_nbrs_coords hx (show y + 1 < h by omega)]
    refine Or.inr (Or.inr (Or.inl ⟨by omega, by omega⟩))

/-- Reflexive-transitive reachability from pixel `s` through pixels
satisfying `P`, along the neighbour relation the source's flood fills
traverse.  Both endpoints satisfy `P`. -/
inductive ReachThru (P : Nat → Prop) (w h : Nat) (s : Nat) : Nat → Prop
  | refl : s < w * h → P s → ReachThru P w h s s
  | tail {j k : Nat} : ReachThru P w h s j → k ∈ nbrs w h j → P k → ReachThru P w h s k

lemma ReachThru.src_lt {P : Nat → Prop} {w h s t : Nat} (hr : ReachThru P w h s t) :
    s < w * h ∧ P s := by
  induction hr with
  | refl h1 h2 => exact ⟨h1, h2⟩
  | tail _ _ _ ih => exact ih

lemma ReachThru.tgt_lt {P : Nat → Prop} {w h s t : Nat} (hr : ReachThru P w h s t) :
    t < w * h ∧ P t := by
  induction hr with
  | refl h1 h2 => exact ⟨h1, h2⟩
  | tail hprev hmem hP ih => exact ⟨nbrs_lt ih.1 hmem, hP⟩

lemma ReachThru.trans {P : Nat → Prop} {w h s t u : Nat}
    (h1 : ReachThru P w h s t) (h2 : ReachThru P w h t u) : ReachThru P w h s u := by
  induction h2 with
  | refl _ _ => exact h1
  | tail _ hmem hP ih => exact ReachThru.tail ih hmem hP

lemma ReachThru.symm {P : Nat → Prop} {w h s t : Nat} (hr : ReachThru P w h s t) :
    ReachThru P w h t s := by
  induction hr with
  | refl h1 h2 => exact ReachThru.refl h1 h2
  | tail hprev hmem hP ih =>
    have hj := hprev.tgt_lt
    have hstep : ReachThru P w h _ _ :=
      ReachThru.tail (ReachThru.refl (nbrs_lt hj.1 hmem) hP) (nbrs_symm hj.1 hmem) hj.2
    exact hstep.trans ih

/-- A pixel on one of the four image edges: first or last column, or first
or last row. -/
def onEdge (w h idx : Nat) : Prop :=
  idx < w * h ∧ (idx % w = 0 ∨ idx % w = w - 1 ∨ idx / w = 0 ∨ idx / w = h - 1)

/-- The seed queue of `floodFillBackground` (src/remove-grey-bg.js:46-54):
for each column `x` the top and bottom pixel, then for each interior row
`y ∈ [1, height-1)` the left and right pixel. -/
def seedQueue (w h : Nat) : List Nat :=
  (List.range w).flatMap (fun x => [x, (h - 1) * w + x]) ++
    (List.range' 1 (h - 1 - 1)).flatMap (fun y => [y * w, y * w + (w - 1)])

lemma mem_seedQueue {w h i : Nat} (hw : 0 < w) (hh : 0 < h) :
    i ∈ seedQueue w h ↔ onEdge w h i := by
  simp only [seedQueue, List.mem_append, List.mem_flatMap, List.mem_range, List.mem_range'_1,
    List.mem_cons, List.not_mem_nil, or_false]
  constructor
  · rintro (⟨x, hx, rfl | rfl⟩ | ⟨y, hy, rfl | rfl⟩)
    · -- top row pixel, coords (i, 0)
      have hd : i / w = 0 := Nat.div_eq_of_lt hx
      refine ⟨?_, Or.inr (Or.inr (Or.inl hd))⟩
      have h1 := Nat.le_mul_of_pos_right w hh
      omega
    · -- bottom row pixel, coords (x, h-1)
      obtain ⟨hm, hd⟩ := coords_mod_div (h - 1) hx
      refine ⟨?_, Or.inr (Or.inr (Or.inr hd))⟩
      have h1 : (h - 1 + 1) * w ≤ h * w := Nat.mul_le_mul_right w (by omega)
      have h2 : (h - 1 + 1) * w = (h - 1) * w + w := Nat.succ_mul _ w
      have h3 : h * w = w * h := Nat.mul_comm h w
      omega
    · -- left column pixel, coords (0, y)
      have h0 : y * w = y * w + 0 := by omega
      obtain ⟨hm, hd⟩ := coords_mod_div (y := y) (show 0 < w from hw)
      rw [← h0] at hm hd
      refine ⟨?_, Or.inl hm⟩
      have h1 : (y + 1) * w ≤ h * w := Nat.mul_le_mul_right w (by omega)
      have h2 : (y + 1) * w = y * w + w := Nat.succ_mul _ w
      have h3 : h * w = w * h := Nat.mul_comm h w
      omega
    · -- right column pixel, coords (w-1, y)
      obtain ⟨hm, hd⟩ := coords_mod_div (y := y) (show w - 1 < w by omega)
      refine ⟨?_, Or.inr (Or.inl hm)⟩
      have h1 : (y + 1) * w ≤ h * w := Nat.mul_le_mul_right w (by omega)
      have h2 : (y + 1) * w = y * w + w := Nat.succ_mul _ w
      have h3 : h * w = w * h := Nat.mul_comm h w
      omega
  · rintro ⟨hlt, hcase⟩
    obtain ⟨x, y, hx, hy, rfl⟩ := exists_coords hlt
    obtain ⟨hm, hd⟩ := coords_mod_div y hx
    rw [hm, hd] at hcase
    rcases Nat.eq_zero_or_pos y with hy0 | hy1
    · -- top row
      subst hy0
      exact Or.inl ⟨x, hx, Or.inl (by omega)⟩
    · rcases Nat.lt_or_ge y (h - 1) with hytop | hybot
      · -- interior row: must be on left or right column
        rcases hcase with hc | hc | hc | hc
        · exact Or.inr ⟨y, by omega, Or.inl (by omega)⟩
        · exact Or.inr ⟨y, by omega, Or.inr (by omega)⟩
        · omega
        · omega
      · -- bottom row
        have hyeq : y = h - 1 := by omega
        subst hyeq
        exact Or.inl ⟨x, hx, Or.inr rfl⟩

/-- A pixel reachable from some edge pixel through classifier-positive
pixels: the characterization of the background mask produced by the
border-seeded flood fill. -/
def BorderReach (data : Nat → Nat) (w h c : Nat) (t : Nat) : Prop :=
  ∃ s, onEdge w h s ∧ ReachThru (fun i => greyAt data c i = true) w h s t

/-- The BFS loop of `floodFillBackground` (src/remove-grey-bg.js:57-75),
fuelled for termination: dequeue from the front (`queue.shift()`), skip
out-of-range or visited indices (`idx < 0` cannot occur with `Nat`
indices: every enqueued index is in range), mark visited, test the
classifier, mark background and enqueue the four neighbours at the back.
The state is `(visited, isBackground, queue)`. -/
def floodLoop (data : Nat → Nat) (w h c : Nat) :
    Nat → (Nat → Bool) → (Nat → Bool) → List Nat → ((Nat → Bool) × (Nat → Bool) × List Nat)
  | 0, visited, isBg, queue => (visited, isBg, queue)
  | _ + 1, visited, isBg, [] => (visited, isBg, [])
  | fuel + 1, visited, isBg, idx :: rest =>
    if w * h ≤ idx ∨ visited idx = true then floodLoop data w h c fuel visited isBg rest
    else if greyAt data c idx = true then
      floodLoop data w h c fuel (fun j => if j = idx then true else visited j)
        (fun j => if j = idx then true else isBg j) (rest ++ nbrs w h idx)
    else floodLoop data w h c fuel (fun j => if j = idx then true else visited j) isBg rest

/-- Translation of `floodFillBackground` (src/remove-grey-bg.js:40-78),
returning the `isBackground` mask.  The fuel `5·(width·height) + |seeds| + 1`
dominates the loop's step count (each step either consumes a queue entry or
marks a previously unvisited pixel and enqueues at most four indices), so
the loop always drains its queue; `floodLoop_queue_nil` proves this. -/
def floodFillBackground (data : Nat → Nat) (w h c : Nat) : Nat → Bool :=
  (floodLoop data w h c (5 * (w * h) + (seedQueue w h).length + 1)
    (fun _ => false) (fun _ => false) (seedQueue w h)).2.1

/-- Number of pixels not yet visited, the decreasing part of the BFS measure. -/
def unvisitedCount (w h : Nat) (visited : Nat → Bool) : Nat :=
  ((Finset.range (w * h)).filter (fun i => visited i = false)).card

lemma unvisitedCount_update {w h idx : Nat} {visited : Nat → Bool}
    (hlt : idx < w * h) (hv : visited idx = false) :
    unvisitedCount w h (fun j => if j = idx then true else visited j) + 1 =
      unvisitedCount w h visited := by
  unfold unvisitedCount
  have hmem : idx ∈ (Finset.range (w * h)).filter (fun i => visited i = false) := by
    simp [Finset.mem_filter, Finset.mem_range, hlt, hv]
  have hset : (Finset.range (w * h)).filter
      (fun i => (fun j => if j = idx then true else visited j) i = false) =
      ((Finset.range (w * h)).filter (fun i => visited i = false)).erase idx := by
    ext j
    simp only [Finset.mem_filter, Finset.mem_range, Finset.mem_erase]
    by_cases hj : j = idx
    · simp [hj, hv]
    · simp [hj]
  rw [hset, Finset.card_erase_of_mem hmem]
  have : 0 < ((Finset.range (w * h)).filter (fun i => visited i = false)).card :=
    Finset.card_pos.mpr ⟨idx, hmem⟩
  omega

lemma nbrs_length_le (w h idx : Nat) : (nbrs w h idx).length ≤ 4 := by
  unfold nbrs
  dsimp only
  split_ifs <;> simp

/-- With fuel at least the measure `5·unvisited + |queue|`, the BFS drains
its queue. -/
lemma floodLoop_queue_nil (data : Nat → Nat) (w h c : Nat) :
    ∀ fuel visited isBg queue,
      5 * unvisitedCount w h visited + queue.length ≤ fuel →
      (floodLoop data w h c fuel visited isBg queue).2.2 = [] := by
  intro fuel
  induction fuel with
  | zero =>
    intro visited isBg queue hm
    have : queue.length = 0 := by omega
    rw [List.length_eq_zero.mp this]
    rfl
  | succ fuel ih =>
    intro visited isBg queue hm
    match queue with
    | [] => rfl
    | idx :: rest =>
      by_cases hskip : w * h ≤ idx ∨ visited idx = true
      · rw [show floodLoop data w h c (fuel + 1) visited isBg (idx :: rest) =
            floodLoop data w h c fuel visited isBg rest by simp [floodLoop, hskip]]
        apply ih
        simp at hm
        omega
      · have hcond := hskip
        push_neg at hskip
        obtain ⟨hlt, hv⟩ := hskip
        have hv' : visited idx = false := by
          cases hveq : visited idx
          · rfl
          · exact absurd hveq hv
        have hdec := unvisitedCount_update hlt hv'
        by_cases hgrey : greyAt data c idx = true
        · rw [show floodLoop data w h c (fuel + 1) visited isBg (idx :: rest) =
              floodLoop data w h c fuel (fun j => if j = idx then true else visited j)
                (fun j => if j = idx then true else isBg j) (rest ++ nbrs w h idx) by
            simp [floodLoop, hcond, hgrey]]
          apply ih
          have hnb := nbrs_length_le w h idx
          simp only [List.length_append] at *
          simp at hm
          omega
        · rw [show floodLoop data w h c (fuel + 1) visited isBg (idx :: rest) =
              floodLoop data w h c fuel (fun j => if j = idx then true else visited j)
                isBg rest by simp [floodLoop, hcond, hgrey]]
          apply ih
          simp at hm
          omega

/-- Loop invariant of the flood-fill BFS. -/
structure FloodInv (data : Nat → Nat) (w h c : Nat)
    (visited isBg : Nat → Bool) (queue : List Nat) : Prop where
  qlt : ∀ i ∈ queue, i < w * h
  bg_reach : ∀ i, isBg i = true → BorderReach data w h c i
  vis_grey_bg : ∀ i, visited i = true → greyAt data c i = true → isBg i = true
  q_just : ∀ i ∈ queue, onEdge w h i ∨ ∃ j, isBg j = true ∧ i ∈ nbrs w h j
  edge_cov : ∀ i, onEdge w h i → visited i = true ∨ i ∈ queue
  bg_cov : ∀ i j, isBg i = true → j ∈ nbrs w h i → visited j = true ∨ j ∈ queue

lemma floodLoop_inv (data : Nat → Nat) (w h c : Nat) :
    ∀ fuel visited isBg queue, FloodInv data w h c visited isBg queue →
      FloodInv data w h c (floodLoop data w h c fuel visited isBg queue).1
        (floodLoop data w h c fuel visited isBg queue).2.1
        (floodLoop data w h c fuel visited isBg queue).2.2 := by
  intro fuel
  induction fuel with
  | zero => intro visited isBg queue hinv; exact hinv
  | succ fuel ih =>
    intro visited isBg queue hinv
    match queue with
    | [] => exact hinv
    | idx :: rest =>
      have hidxlt : idx < w * h := hinv.qlt idx (List.mem_cons_self idx rest)
      by_cases hskip : w * h ≤ idx ∨ visited idx = true
      · have hvidx : visited idx = true := by
          rcases hskip with h1 | h1
          · omega
          · exact h1
        rw [show floodLoop data w h c (fuel + 1) visited isBg (idx :: rest) =
            floodLoop data w h c fuel visited isBg rest by simp [floodLoop, hskip]]
        apply ih
        exact {
          qlt := fun i hi => hinv.qlt i (List.mem_cons_of_mem idx hi)
          bg_reach := hinv.bg_reach
          vis_grey_bg := hinv.vis_grey_bg
          q_just := fun i hi => hinv.q_just i (List.mem_cons_of_mem idx hi)
          edge_cov := fun i hi => by
            rcases hinv.edge_cov i hi with hv | hq
            · exact Or.inl hv
            · rcases List.mem_cons.mp hq with rfl | hq
              · exact Or.inl hvidx
              · exact Or.inr hq
          bg_cov := fun i j hbg hj => by
            rcases hinv.bg_cov i j hbg hj with hv | hq
            · exact Or.inl hv
            · rcases List.mem_cons.mp hq with rfl | hq
              · exact Or.inl hvidx
              · exact Or.inr hq }
      · have hcond := hskip
        push_neg at hskip
        obtain ⟨hlt, hnv⟩ := hskip
        by_cases hgrey : greyAt data c idx = true
        · -- the pixel is classifier-positive: mark visited and background,
          -- enqueue its neighbours
          rw [show floodLoop data w h c (fuel + 1) visited isBg (idx :: rest) =
              floodLoop data w h c fuel (fun j => if j = idx then true else visited j)
                (fun j => if j = idx then true else isBg j) (rest ++ nbrs w h idx) by
            simp [floodLoop, hcond, hgrey]]
          apply ih
          have hreach_idx : BorderReach data w h c idx := by
            rcases hinv.q_just idx (List.mem_cons_self idx rest) with hedge | ⟨j, hbgj, hmem⟩
            · exact ⟨idx, hedge, ReachThru.refl hidxlt hgrey⟩
            · obtain ⟨s, hs, hr⟩ := hinv.bg_reach j hbgj
              exact ⟨s, hs, hr.tail hmem hgrey⟩
          exact {
            qlt := fun i hi => by
              rcases List.mem_append.mp hi with hi | hi
              · exact hinv.qlt i (List.mem_cons_of_mem idx hi)
              · exact nbrs_lt hidxlt hi
            bg_reach := fun i hbg => by
              by_cases hie : i = idx
              · subst hie; exact hreach_idx
              · rw [if_neg hie] at hbg
                exact hinv.bg_reach i hbg
            vis_grey_bg := fun i hv hg => by
              by_cases hie : i = idx
              · subst hie; simp
              · rw [if_neg hie] at hv ⊢
                exact hinv.vis_grey_bg i hv hg
            q_just := fun i hi => by
              rcases List.mem_append.mp hi with hi | hi
              · rcases hinv.q_just i (List.mem_cons_of_mem idx hi) with hedge | ⟨j, hbgj, hmem⟩
                · exact Or.inl hedge
                · refine Or.inr ⟨j, ?_, hmem⟩
                  by_cases hje : j = idx <;> simp [hje, hbgj]
              · exact Or.inr ⟨idx, by simp, hi⟩
            edge_cov := fun i hi => by
              rcases hinv.edge_cov i hi with hv | hq
              · exact Or.inl (by by_cases hie : i = idx <;> simp [hie, hv])
              · rcases List.mem_cons.mp hq with rfl | hq
                · exact Or.inl (by simp)
                · exact Or.inr (List.mem_append_left _ hq)
            bg_cov := fun i j hbg hj => by
              by_cases hie : i = idx
              · subst hie
                exact Or.inr (List.mem_append_right _ hj)
              · rw [if_neg hie] at hbg
                rcases hinv.bg_cov i j hbg hj with hv | hq
                · exact Or.inl (by by_cases hje : j = idx <;> simp [hje, hv])
                · rcases List.mem_cons.mp hq with rfl | hq
                  · exact Or.inl (by simp)
                  · exact Or.inr (List.mem_append_left _ hq) }
        · -- not classifier-positive: only mark visited
          rw [show floodLoop data w h c (fuel + 1) visited isBg (idx :: rest) =
              floodLoop data w h c fuel (fun j => if j = idx then true else visited j)
                isBg rest by simp [floodLoop, hcond, hgrey]]
          apply ih
          exact {
            qlt := fun i hi => hinv.qlt i (List.mem_cons_of_mem idx hi)
            bg_reach := hinv.bg_reach
            vis_grey_bg := fun i hv hg => by
              by_cases hie : i = idx
              · subst hie; exact absurd hg hgrey
              · rw [if_neg hie] at hv
                exact hinv.vis_grey_bg i hv hg
            q_just := fun i hi => hinv.q_just i (List.mem_cons_of_mem idx hi)
            edge_cov := fun i hi => by
              rcases hinv.edge_cov i hi with hv | hq
              · exact Or.inl (by by_cases hie : i = idx <;> simp [hie, hv])
              · rcases List.mem_cons.mp hq with rfl | hq
                · exact Or.inl (by simp)
                · exact Or.inr hq
            bg_cov := fun i j hbg hj => by
              rcases hinv.bg_cov i j hbg hj with hv | hq
              · exact Or.inl (by by_cases hje : j = idx <;> simp [hje, hv])
              · rcases List.mem_cons.mp hq with rfl | hq
                · exact Or.inl (by simp)
                · exact Or.inr hq }

/-- C1: `floodFillBackground` marks a pixel true iff it satisfies the
background classifier and is reachable from some pixel on one of the four
image edges through a 4-connected path of classifier-positive pixels
(`BorderReach` packages the path; its endpoint is classifier-positive by
construction, hence the equivalence with the stated conjunction).  In
particular a classifier-positive pixel enclosed by non-classifier-positive
pixels is not `BorderReach` and is never marked. -/
theorem floodFillBackground_spec (data : Nat → Nat) (w h c : Nat)
    (hw : 0 < w) (hh : 0 < h) (idx : Nat) :
    floodFillBackground data w h c idx = true ↔
      (greyAt data c idx = true ∧ BorderReach data w h c idx) := by
  have hinv0 : FloodInv data w h c (fun _ => false) (fun _ => false) (seedQueue w h) := {
    qlt := fun i hi => ((mem_seedQueue hw hh).mp hi).1
    bg_reach := fun i hbg => by simp at hbg
    vis_grey_bg := fun i hv => by simp at hv
    q_just := fun i hi => Or.inl ((mem_seedQueue hw hh).mp hi)
    edge_cov := fun i hi => Or.inr ((mem_seedQueue hw hh).mpr hi)
    bg_cov := fun i j hbg => by simp at hbg }
  set fuel := 5 * (w * h) + (seedQueue w h).length + 1 with hfuel
  have hinv := floodLoop_inv data w h c fuel (fun _ => false) (fun _ => false)
    (seedQueue w h) hinv0
  have hqnil : (floodLoop data w h c fuel (fun _ => false) (fun _ => false)
      (seedQueue w h)).2.2 = [] := by
    apply floodLoop_queue_nil
    have hcount : unvisitedCount w h (fun _ => false) = w * h := by
      unfold unvisitedCount
      simp
    omega
  rw [hqnil] at hinv
  constructor
  · intro hbg
    have hr := hinv.bg_reach idx hbg
    obtain ⟨s, hs, hreach⟩ := hr
    exact ⟨hreach.tgt_lt.2, ⟨s, hs, hreach⟩⟩
  · rintro ⟨hgrey, s, hs, hreach⟩
    have hmain : ∀ t, ReachThru (fun i => greyAt data c i = true) w h s t →
        (floodLoop data w h c fuel (fun _ => false) (fun _ => false)
          (seedQueue w h)).2.1 t = true := by
      intro t hr
      induction hr with
      | refl hslt hsgrey =>
        rcases hinv.edge_cov s hs with hv | hq
        · exact hinv.vis_grey_bg s hv hsgrey
        · simp at hq
      | tail hprev hmem hP ih =>
        rcases hinv.bg_cov _ _ ih hmem with hv | hq
        · exact hinv.vis_grey_bg _ hv hP
        · simp at hq
    exact hmain idx hreach

/-- Witness for `floodFillBackground_spec` on a 1-by-1 backdrop-coloured
image. -/
theorem floodFillBackground_spec_witness :
    ((0:Nat) < 1 ∧ (0:Nat) < 1) ∧
      (floodFillBackground (fun _ => 112) 1 1 4 0 = true ↔
        (greyAt (fun _ => 112) 4 0 = true ∧ BorderReach (fun _ => 112) 1 1 4 0)) :=
  ⟨⟨Nat.one_pos, Nat.one_pos⟩,
    floodFillBackground_spec (fun _ => 112) 1 1 4 Nat.one_pos Nat.one_pos 0⟩

/-- The offsets `-12, -10, ..., 10, 12` of the sparse sample loops of
`densityShadowCleanup` (`for dy = -radius; dy <= radius; dy += 2` with
`radius = 12`). -/
def densityOffsets : List Int := (List.range 13).map (fun k => 2 * (k : Int) - 12)

/-- The neighbour sample of `densityShadowCleanup` (src/remove-grey-bg.js:
211-220): over the sparse offsets restricted to the circle
`dx²+dy² ≤ radius²`, count `(transparent, total)`, where `transparent`
counts sampled positions whose linear index is in array range and
mask-true.  (For the interior pixels actually scanned every sampled index
is in range; the range test models the JavaScript out-of-bounds array read
yielding `undefined`, which is falsy.) -/
def densitySample (isBg : Nat → Bool) (w h x y : Nat) : Nat × Nat :=
  densityOffsets.foldl (fun acc dy =>
    densityOffsets.foldl (fun acc dx =>
      if dx * dx + dy * dy > 12 * 12 then acc
      else
        ((if 0 ≤ ((y : Int) + dy) * (w : Int) + ((x : Int) + dx) ∧
              ((y : Int) + dy) * (w : Int) + ((x : Int) + dx) < (w : Int) * (h : Int) ∧
              isBg (((y : Int) + dy) * (w : Int) + ((x : Int) + dx)).toNat = true
          then acc.1 + 1 else acc.1), acc.2 + 1)) acc) (0, 0)

/-- The total of the sparse circular sample is the constant 113 (the number
of even offset pairs inside the radius-12 circle), independent of mask and
position. -/
lemma densitySample_total (isBg : Nat → Bool) (w h x y : Nat) :
    (densitySample isBg w h x y).2 = 113 := rfl

/-- One scan pass of `densityShadowCleanup` (src/remove-grey-bg.js:202-226):
the `toRemove` list.  The scan covers `y ∈ [radius, height-radius)`,
`x ∈ [radius, width-radius)`; a non-background pixel is queued when its
brightness is at most 160 (source: `(r+g+b)/3 > 160` skips; exact integer
form `r+g+b > 480`) and more than 45% of its sparse circular sample is
mask-true (source: `transparent / total > 0.45`; exact integer form
`100·transparent > 45·total`, see the file header on floating point). -/
def densityQueueList (data : Nat → Nat) (isBg : Nat → Bool) (w h c : Nat) : List Nat :=
  (List.range' 12 (h - 12 - 12)).flatMap (fun y =>
    (List.range' 12 (w - 12 - 12)).filterMap (fun x =>
      if isBg (y * w + x) = true then none
      else
        if data ((y * w + x) * c) + data ((y * w + x) * c + 1) +
            data ((y * w + x) * c + 2) > 480 then none
        else
          if 100 * (densitySample isBg w h x y).1 > 45 * (densitySample isBg w h x y).2
          then some (y * w + x) else none))

/-- Committing a pass's queued pixels to the mask
(src/remove-grey-bg.js:229, `for (const idx of toRemove) isBackground[idx] = 1`). -/
def commitList (isBg : Nat → Bool) (l : List Nat) : Nat → Bool :=
  l.foldl (fun m idx => fun j => if j = idx then true else m j) isBg

/-- The pass loop of `densityShadowCleanup` (src/remove-grey-bg.js:199-231):
up to `passes = 5` passes; each pass scans with the mask as of the start of
the pass, breaks when nothing is queued, then commits all queued pixels
together and accumulates `totalCleaned`. -/
def densityLoop (data : Nat → Nat) (w h c : Nat) :
    Nat → (Nat → Bool) → Nat → ((Nat → Bool) × Nat)
  | 0, isBg, acc => (isBg, acc)
  | p + 1, isBg, acc =>
    let toRemove := densityQueueList data isBg w h c
    if toRemove = [] then (isBg, acc)
    else densityLoop data w h c p (commitList isBg toRemove) (acc + toRemove.length)

/-- Translation of `densityShadowCleanup` (src/remove-grey-bg.js:192-234),
returning the updated mask and `totalCleaned`. -/
def densityShadowCleanup (data : Nat → Nat) (isBg : Nat → Bool) (w h c : Nat) :
    (Nat → Bool) × Nat :=
  densityLoop data w h c 5 isBg 0

lemma commitList_apply (l : List Nat) : ∀ (isBg : Nat → Bool) (j : Nat),
    commitList isBg l j = (isBg j || decide (j ∈ l)) := by
  induction l with
  | nil => intro isBg j; simp [commitList]
  | cons a l ih =>
    intro isBg j
    have hstep : commitList isBg (a :: l) j =
        commitList (fun k => if k = a then true else isBg k) l j := rfl
    rw [hstep, ih]
    by_cases hj : j = a <;> simp [hj]

lemma coords_unique {w x y x2 y2 : Nat} (hx : x < w) (hx2 : x2 < w)
    (he : y * w + x = y2 * w + x2) : x = x2 ∧ y = y2 := by
  have h1 := coords_mod_div y hx
  have h2 := coords_mod_div y2 hx2
  rw [he] at h1
  exact ⟨h1.1.symm.trans h2.1, h1.2.symm.trans h2.2⟩

/-- Membership in a density pass's queue, characterized against the mask
the pass started from. -/
lemma mem_densityQueueList {data : Nat → Nat} {isBg : Nat → Bool} {w h c idx : Nat} :
    idx ∈ densityQueueList data isBg w h c ↔
      ∃ x y, 12 ≤ x ∧ x < w - 12 ∧ 12 ≤ y ∧ y < h - 12 ∧ idx = y * w + x ∧
        isBg idx = false ∧
        data (idx * c) + data (idx * c + 1) + data (idx * c + 2) ≤ 480 ∧
        100 * (densitySample isBg w h x y).1 > 45 * (densitySample isBg w h x y).2 := by
  simp only [densityQueueList, List.mem_flatMap, List.mem_filterMap, List.mem_range'_1]
  constructor
  · rintro ⟨y, hy, x, hx, hsome⟩
    by_cases h1 : isBg (y * w + x) = true
    · rw [if_pos h1] at hsome
      exact absurd hsome (by simp)
    · rw [if_neg h1] at hsome
      by_cases h2 : data ((y * w + x) * c) + data ((y * w + x) * c + 1) +
          data ((y * w + x) * c + 2) > 480
      · rw [if_pos h2] at hsome
        exact absurd hsome (by simp)
      · rw [if_neg h2] at hsome
        by_cases h3 : 100 * (densitySample isBg w h x y).1 >
            45 * (densitySample isBg w h x y).2
        · rw [if_pos h3, Option.some_inj] at hsome
          subst hsome
          refine ⟨x, y, by omega, by omega, by omega, by omega, rfl, ?_, by omega, h3⟩
          cases hb : isBg (y * w + x)
          · rfl
          · exact absurd hb h1
        · rw [if_neg h3] at hsome
          exact absurd hsome (by simp)
  · rintro ⟨x, y, hx1, hx2, hy1, hy2, rfl, hbg, hbr, hfrac⟩
    refine ⟨y, by omega, x, by omega, ?_⟩
    rw [if_neg (by simp [hbg]), if_neg (by omega), if_pos hfrac]

/-- Exact form of the source's float test `transparent / total > 0.45`. -/
lemma frac_gt_iff {t tot : Nat} (htot : 0 < tot) :
    100 * t > 45 * tot ↔ ((t : ℚ) / (tot : ℚ) > 45 / 100) := by
  have h1 : (0:ℚ) < 100 := by norm_num
  have h2 : (0:ℚ) < (tot:ℚ) := by exact_mod_cast htot
  rw [gt_iff_lt, gt_iff_lt, div_lt_div_iff h1 h2]
  constructor
  · intro hlt
    have hc : ((45 * tot : Nat) : ℚ) < ((100 * t : Nat) : ℚ) := by exact_mod_cast hlt
    push_cast at hc
    linarith
  · intro hlt
    have hc : ((45 * tot : Nat) : ℚ) < ((100 * t : Nat) : ℚ) := by push_cast; linarith
    exact_mod_cast hc

/-- All-zero (black) test raster. -/
def cexData : Nat → Nat := fun _ => 0

/-- Test mask: background everywhere except pixel 26, which is (1,1) of a
25-by-25 image. -/
def cexMask : Nat → Bool := fun i => if i = 26 then false else true

/-- C4 counterexample: in a 25-by-25 image, pixel (1,1) (linear index 26)
is non-background, its brightness 0 is below the shadow ceiling 160, and
more than 45% of its sparse circular sample is background-marked (62 of
113 sampled positions), yet `densityShadowCleanup` queues nothing and
leaves the pixel non-background: the scan loops only cover
`x, y ∈ [radius, dimension - radius)`, so pixels within `radius = 12` of
an image edge are never evaluated, contradicting the claim's quantifier
over every non-background pixel. -/
theorem densityShadow_border_cex :
    cexMask 26 = false ∧
    (26 : Nat) < 25 * 25 ∧
    ((cexData (26 * 4) + cexData (26 * 4 + 1) + cexData (26 * 4 + 2) : Nat) : ℚ) / 3 < 160 ∧
    ((densitySample cexMask 25 25 1 1).1 : ℚ) / ((densitySample cexMask 25 25 1 1).2 : ℚ)
        > 45 / 100 ∧
    26 ∉ densityQueueList cexData cexMask 25 25 4 ∧
    (densityShadowCleanup cexData cexMask 25 25 4).1 26 = false := by
  have hsample : densitySample cexMask 25 25 1 1 = (62, 113) := by decide
  have hqueue : densityQueueList cexData cexMask 25 25 4 = [] := by decide
  refine ⟨rfl, by decide, ?_, ?_, ?_, ?_⟩
  · simp only [cexData]
    norm_num
  · rw [hsample]
    norm_num
  · rw [hqueue]
    simp
  · decide

/-- C4 (amended): for every non-background pixel lying in the interior
scan margin `[radius, width - radius) × [radius, height - radius)` (with
`radius = 12`) whose brightness is below the shadow ceiling 160, the pass
queues it exactly when the fraction of background-marked pixels over the
sparse circular sample exceeds 0.45. -/
theorem densityQueue_interior_spec (data : Nat → Nat) (isBg : Nat → Bool)
    (w h c x y : Nat) (hx1 : 12 ≤ x) (hx2 : x < w - 12) (hy1 : 12 ≤ y) (hy2 : y < h - 12)
    (hbg : isBg (y * w + x) = false)
    (hbr : ((data ((y * w + x) * c) + data ((y * w + x) * c + 1) +
        data ((y * w + x) * c + 2) : Nat) : ℚ) / 3 < 160) :
    (y * w + x) ∈ densityQueueList data isBg w h c ↔
      ((densitySample isBg w h x y).1 : ℚ) / ((densitySample isBg w h x y).2 : ℚ)
        > 45 / 100 := by
  have htot : 0 < (densitySample isBg w h x y).2 := by
    rw [densitySample_total]
    norm_num
  have hbrn : data ((y * w + x) * c) + data ((y * w + x) * c + 1) +
      data ((y * w + x) * c + 2) ≤ 480 := by
    rw [div_lt_iff (by norm_num : (0:ℚ) < 3)] at hbr
    push_cast at hbr
    have hc : ((data ((y * w + x) * c) + data ((y * w + x) * c + 1) +
        data ((y * w + x) * c + 2) : Nat) : ℚ) < ((480 : Nat) : ℚ) := by push_cast; linarith
    have := Nat.cast_lt (α := ℚ) |>.mp hc
    omega
  rw [mem_densityQueueList]
  constructor
  · rintro ⟨x2, y2, hx1b, hx2b, hy1b, hy2b, heq, hbgb, hbrb, hfr⟩
    obtain ⟨hxe, hye⟩ := coords_unique (show x < w by omega) (show x2 < w by omega) heq
    subst hxe
    subst hye
    exact (frac_gt_iff htot).mp hfr
  · intro hfr
    exact ⟨x, y, hx1, hx2, hy1, hy2, rfl, hbg, hbrn, (frac_gt_iff htot).mpr hfr⟩

/-- Witness for `densityQueue_interior_spec` at the single interior pixel
of a 25-by-25 all-foreground image. -/
theorem densityQueue_interior_spec_witness :
    ((12:Nat) ≤ 12 ∧ (12:Nat) < 25 - 12 ∧ (fun _ : Nat => false) (12 * 25 + 12) = false) ∧
      ((12 * 25 + 12) ∈ densityQueueList (fun _ => 0) (fun _ => false) 25 25 4 ↔
        ((densitySample (fun _ => false) 25 25 12 12).1 : ℚ) /
            ((densitySample (fun _ => false) 25 25 12 12).2 : ℚ) > 45 / 100) :=
  ⟨⟨by decide, by decide, rfl⟩,
    densityQueue_interior_spec (fun _ => 0) (fun _ => false) 25 25 4 12 12
      (by decide) (by decide) (by decide) (by decide) rfl (by norm_num)⟩

/-- Reachability through non-background pixels along 4-connected steps:
`t` is in the foreground component of `s`. -/
def FgReach (isBg : Nat → Bool) (w h : Nat) (s t : Nat) : Prop :=
  ReachThru (fun i => isBg i = false) w h s t

/-- The inner BFS of `keepLargestBlob` (src/remove-grey-bg.js:143-155),
fuelled: pop from the stack (`queue.pop()` takes the most recently pushed
element, so the Lean list's head is the stack top and the four neighbour
pushes appear reversed at the head), skip out-of-range, background or
already-labelled indices, label the pixel with the current blob id,
increment the size, push the neighbours.  State `(blobId, size, stack)`. -/
def blobLoop (isBg : Nat → Bool) (w h : Nat) :
    Nat → List Nat → (Nat → Int) → Nat → Nat → ((Nat → Int) × Nat × List Nat)
  | 0, queue, blobId, _, size => (blobId, size, queue)
  | _ + 1, [], blobId, _, size => (blobId, size, [])
  | fuel + 1, idx :: rest, blobId, cur, size =>
    if w * h ≤ idx ∨ isBg idx = true ∨ 0 ≤ blobId idx then
      blobLoop isBg w h fuel rest blobId cur size
    else
      blobLoop isBg w h fuel ((nbrs w h idx).reverse ++ rest)
        (fun j => if j = idx then (cur : Int) else blobId j) cur (size + 1)

/-- The outer labelling scan of `keepLargestBlob`
(src/remove-grey-bg.js:139-158): for each pixel index in row-major order,
skip background or already-labelled pixels, otherwise run the BFS seeded
there with the next blob id (`currentBlob = sizes.length`) and append the
component size to `blobSizes`. -/
def blobScan (isBg : Nat → Bool) (w h : Nat) :
    List Nat → (Nat → Int) → List Nat → ((Nat → Int) × List Nat)
  | [], blobId, sizes => (blobId, sizes)
  | i :: rest, blobId, sizes =>
    if isBg i = true ∨ 0 ≤ blobId i then blobScan isBg w h rest blobId sizes
    else
      blobScan isBg w h rest
        (blobLoop isBg w h (5 * (w * h) + 1) [i] blobId sizes.length 0).1
        (sizes ++ [(blobLoop isBg w h (5 * (w * h) + 1) [i] blobId sizes.length 0).2.1])

/-- The largest-blob selection of `keepLargestBlob`
(src/remove-grey-bg.js:163-166): first index attaining the maximal size,
scanning `b` from 1 with a strict comparison. -/
def largestBlobIdx (sizes : List Nat) : Nat :=
  (List.range' 1 (sizes.length - 1)).foldl
    (fun largestBlob b => if sizes.getD b 0 > sizes.getD largestBlob 0 then b else largestBlob) 0

/-- Translation of `keepLargestBlob` (src/remove-grey-bg.js:133-178):
label the 4-connected foreground components, return `(mask, 0)` unchanged
when there is no component, otherwise mark every pixel outside the largest
component as background and count the marked pixels (`extraRemoved`). -/
def keepLargestBlob (isBg : Nat → Bool) (w h : Nat) : (Nat → Bool) × Nat :=
  let r := blobScan isBg w h (List.range (w * h)) (fun _ => (-1 : Int)) []
  if r.2.length = 0 then (isBg, 0)
  else
    ((fun i => if i < w * h ∧ isBg i = false ∧ r.1 i ≠ (largestBlobIdx r.2 : Int)
        then true else isBg i),
      ((List.range (w * h)).filter
        (fun i => !isBg i && decide (r.1 i ≠ (largestBlobIdx r.2 : Int)))).length)

/-- Number of unlabelled pixels, the decreasing part of the BFS measure. -/
def unlabeledCount (w h : Nat) (B : Nat → Int) : Nat :=
  ((Finset.range (w * h)).filter (fun i => B i < 0)).card

lemma unlabeledCount_update {w h idx : Nat} {cur : Nat} {B : Nat → Int}
    (hlt : idx < w * h) (hneg : B idx < 0) :
    unlabeledCount w h (fun j => if j = idx then (cur : Int) else B j) + 1 =
      unlabeledCount w h B := by
  unfold unlabeledCount
  have hmem : idx ∈ (Finset.range (w * h)).filter (fun i => B i < 0) := by
    simp [Finset.mem_filter, Finset.mem_range, hlt, hneg]
  have hset : (Finset.range (w * h)).filter
      (fun i => (fun j => if j = idx then (cur : Int) else B j) i < 0) =
      ((Finset.range (w * h)).filter (fun i => B i < 0)).erase idx := by
    ext j
    simp only [Finset.mem_filter, Finset.mem_range, Finset.mem_erase]
    by_cases hj : j = idx
    · subst hj
      simp
    · simp [hj]
  rw [hset, Finset.card_erase_of_mem hmem]
  have : 0 < ((Finset.range (w * h)).filter (fun i => B i < 0)).card :=
    Finset.card_pos.mpr ⟨idx, hmem⟩
  omega

lemma getD_snoc_last (l : List Nat) (a : Nat) : (l ++ [a]).getD l.length 0 = a := by
  simp

lemma getD_snoc_lt (l : List Nat) (a b : Nat) (hb : b < l.length) :
    (l ++ [a]).getD b 0 = l.getD b 0 := by
  rw [List.getD_eq_getElem?_getD, List.getElem?_append, if_pos hb, ← List.getD_eq_getElem?_getD]

/-- Pixels of an unlabelled pixel's component are unlabelled, given that
the labelled set is closed under foreground adjacency. -/
lemma comp_unlabeled {isBg : Nat → Bool} {w h : Nat} {B : Nat → Int}
    (hclosed : ∀ i j, 0 ≤ B i → j ∈ nbrs w h i → isBg j = false → 0 ≤ B j)
    {s : Nat} (hneg : B s < 0) : ∀ t, FgReach isBg w h s t → B t < 0 := by
  intro t ht
  by_contra hc
  push_neg at hc
  have hts : ReachThru (fun i => isBg i = false) w h t s := ReachThru.symm ht
  have hall : ∀ u, ReachThru (fun i => isBg i = false) w h t u → 0 ≤ B u := by
    intro u hu
    induction hu with
    | refl _ _ => exact hc
    | tail hprev hmem hP ih => exact hclosed _ _ ih hmem hP
  have := hall s hts
  omega

/-- Loop invariant of the component BFS: `S` is the set of pixels labelled
by this run. -/
def BlobInv (isBg : Nat → Bool) (w h s : Nat) (B₀ : Nat → Int) (cur : Nat)
    (B : Nat → Int) (size : Nat) (queue : List Nat) : Prop :=
  ∃ S : Finset Nat,
    (∀ i, B i = if i ∈ S then (cur : Int) else B₀ i) ∧
    size = S.card ∧
    (∀ i ∈ S, FgReach isBg w h s i) ∧
    (∀ j ∈ queue, j = s ∨ ∃ i ∈ S, j ∈ nbrs w h i) ∧
    (s ∈ S ∨ s ∈ queue) ∧
    (∀ i ∈ S, ∀ j, j ∈ nbrs w h i → isBg j = false → j ∈ S ∨ j ∈ queue)

/-- Running the component BFS preserves the invariant and, given fuel at
least the measure, drains the stack. -/
lemma blobLoop_run (isBg : Nat → Bool) (w h s : Nat) (B₀ : Nat → Int) (cur : Nat)
    (hs_lt : s < w * h) (hs_fg : isBg s = false)
    (hcomp_unl : ∀ t, FgReach isBg w h s t → B₀ t < 0) :
    ∀ fuel (queue : List Nat) (B : Nat → Int) (size : Nat),
      5 * unlabeledCount w h B + queue.length ≤ fuel →
      BlobInv isBg w h s B₀ cur B size queue →
      BlobInv isBg w h s B₀ cur (blobLoop isBg w h fuel queue B cur size).1
        (blobLoop isBg w h fuel queue B cur size).2.1
        (blobLoop isBg w h fuel queue B cur size).2.2 ∧
      (blobLoop isBg w h fuel queue B cur size).2.2 = [] := by
  intro fuel
  induction fuel with
  | zero =>
    intro queue B size hm hinv
    have hq : queue = [] := List.length_eq_zero.mp (by omega)
    subst hq
    exact ⟨hinv, rfl⟩
  | succ fuel ih =>
    intro queue B size hm hinv
    match queue with
    | [] => exact ⟨hinv, rfl⟩
    | idx :: rest =>
      obtain ⟨S, hB, hsize, hSreach, hq_just, hs_in, hclosure⟩ := hinv
      by_cases hsk : w * h ≤ idx ∨ isBg idx = true ∨ 0 ≤ B idx
      · -- skipped entry
        rw [show blobLoop isBg w h (fuel + 1) (idx :: rest) B cur size =
            blobLoop isBg w h fuel rest B cur size by simp [blobLoop, hsk]]
        apply ih
        · simp only [List.length_cons] at hm
          omega
        · refine ⟨S, hB, hsize, hSreach,
            fun j hj => hq_just j (List.mem_cons_of_mem idx hj), ?_, ?_⟩
          · rcases hs_in with hS | hq
            · exact Or.inl hS
            · rcases List.mem_cons.mp hq with rfl | hq
              · left
                by_contra hns
                have hBs : B s = B₀ s := by rw [hB s, if_neg hns]
                have hB0s : B₀ s < 0 := hcomp_unl s (ReachThru.refl hs_lt hs_fg)
                rcases hsk with h1 | h1 | h1
                · omega
                · rw [hs_fg] at h1
                  simp at h1
                · omega
              · exact Or.inr hq
          · intro i hiS j hjn hjfg
            rcases hclosure i hiS j hjn hjfg with hjS | hjq
            · exact Or.inl hjS
            · rcases List.mem_cons.mp hjq with rfl | hjq
              · left
                by_contra hns
                have hBj : B j = B₀ j := by rw [hB j, if_neg hns]
                have hreach : FgReach isBg w h s j :=
                  ReachThru.tail (hSreach i hiS) hjn hjfg
                have hB0j : B₀ j < 0 := hcomp_unl j hreach
                rcases hsk with h1 | h1 | h1
                · have hjlt : j < w * h :=
                    nbrs_lt (hSreach i hiS).tgt_lt.1 hjn
                  omega
                · rw [hjfg] at h1
                  simp at h1
                · omega
              · exact Or.inr hjq
      · -- processed entry
        have hsk0 := hsk
        push_neg at hsk
        obtain ⟨hlt2, hfg2, hneg2⟩ := hsk
        have hfg : isBg idx = false := by
          cases hb : isBg idx
          · rfl
          · exact absurd hb hfg2
        have hnotS : idx ∉ S := by
          intro hin
          rw [hB idx, if_pos hin] at hneg2
          omega
        have hreach_idx : FgReach isBg w h s idx := by
          rcases hq_just idx (List.mem_cons_self idx rest) with heq | ⟨i, hiS, hmem⟩
          · rw [heq]
            exact ReachThru.refl hs_lt hs_fg
          · exact ReachThru.tail (hSreach i hiS) hmem hfg
        rw [show blobLoop isBg w h (fuel + 1) (idx :: rest) B cur size =
            blobLoop isBg w h fuel ((nbrs w h idx).reverse ++ rest)
              (fun j => if j = idx then (cur : Int) else B j) cur (size + 1) by
          simp [blobLoop, hsk0]]
        apply ih
        · have hdec := @unlabeledCount_update w h idx cur B hlt2 hneg2
          have hnl : ((nbrs w h idx).reverse).length ≤ 4 := by
            rw [List.length_reverse]
            exact nbrs_length_le w h idx
          simp only [List.length_append, List.length_cons] at hm ⊢
          omega
        · refine ⟨insert idx S, ?_, ?_, ?_, ?_, ?_, ?_⟩
          · intro i
            by_cases hi : i = idx
            · subst hi
              simp
            · show (if i = idx then (cur : Int) else B i) =
                if i ∈ insert idx S then (cur : Int) else B₀ i
              rw [if_neg hi, hB i]
              by_cases hiS : i ∈ S <;> simp [hi, hiS]
          · rw [Finset.card_insert_of_not_mem hnotS]
            omega
          · intro i hi
            rcases Finset.mem_insert.mp hi with rfl | hiS
            · exact hreach_idx
            · exact hSreach i hiS
          · intro j hj
            rcases List.mem_append.mp hj with hj | hj
            · rw [List.mem_reverse] at hj
              exact Or.inr ⟨idx, Finset.mem_insert_self idx S, hj⟩
            · rcases hq_just j (List.mem_cons_of_mem idx hj) with heq | ⟨i, hiS, hmem⟩
              · exact Or.inl heq
              · exact Or.inr ⟨i, Finset.mem_insert_of_mem hiS, hmem⟩
          · rcases hs_in with hS | hq
            · exact Or.inl (Finset.mem_insert_of_mem hS)
            · rcases List.mem_cons.mp hq with rfl | hq
              · exact Or.inl (Finset.mem_insert_self _ _)
              · exact Or.inr (List.mem_append_right _ hq)
          · intro i hi j hjn hjfg
            rcases Finset.mem_insert.mp hi with rfl | hiS
            · exact Or.inr (List.mem_append_left _ (List.mem_reverse.mpr hjn))
            · rcases hclosure i hiS j hjn hjfg with hjS | hjq
              · exact Or.inl (Finset.mem_insert_of_mem hjS)
              · rcases List.mem_cons.mp hjq with rfl | hjq
                · exact Or.inl (Finset.mem_insert_self _ _)
                · exact Or.inr (List.mem_append_right _ hjq)

/-- At a drained stack the pixels labelled by this BFS run are exactly the
seed's component. -/
lemma blobInv_final {isBg : Nat → Bool} {w h s : Nat} {B₀ : Nat → Int} {cur : Nat}
    {B : Nat → Int} {size : Nat}
    (hinv : BlobInv isBg w h s B₀ cur B size []) :
    (∀ i, FgReach isBg w h s i → B i = (cur : Int)) ∧
    (∀ i, ¬ FgReach isBg w h s i → B i = B₀ i) ∧
    ∃ S : Finset Nat, (∀ i, i ∈ S ↔ FgReach isBg w h s i) ∧ size = S.card := by
  obtain ⟨S, hB, hsize, hSreach, hq_just, hs_in, hclosure⟩ := hinv
  have hs_in2 : s ∈ S := by
    rcases hs_in with hin | hin
    · exact hin
    · simp at hin
  have hsup : ∀ i, ReachThru (fun k => isBg k = false) w h s i → i ∈ S := by
    intro i hi
    induction hi with
    | refl _ _ => exact hs_in2
    | tail hprev hmem hP ih =>
      rcases hclosure _ ih _ hmem hP with hin | hin
      · exact hin
      · simp at hin
  refine ⟨?_, ?_, ⟨S, fun i => ⟨hSreach i, hsup i⟩, hsize⟩⟩
  · intro i hi
    rw [hB i, if_pos (hsup i hi)]
  · intro i hi
    rw [hB i, if_neg (fun hin => hi (hSreach i hin))]

/-- Invariant of the outer labelling scan after all indices below `p` have
been processed: `reps` lists, in blob-id order, the row-major-first pixel
of each labelled component; labels match components, sizes match component
cardinalities, every foreground pixel below `p` is labelled, and the
labelled set is closed under foreground adjacency. -/
def ScanInv (isBg : Nat → Bool) (w h p : Nat) (B : Nat → Int) (sizes : List Nat) : Prop :=
  ∃ reps : List Nat,
    reps.length = sizes.length ∧
    (∀ b, b < reps.length →
      reps.getD b 0 < w * h ∧ isBg (reps.getD b 0) = false ∧ reps.getD b 0 < p ∧
      (∀ i, B i = (b : Int) ↔ FgReach isBg w h (reps.getD b 0) i) ∧
      (∃ S : Finset Nat, (∀ i, i ∈ S ↔ FgReach isBg w h (reps.getD b 0) i) ∧
        sizes.getD b 0 = S.card) ∧
      (∀ i, FgReach isBg w h (reps.getD b 0) i → reps.getD b 0 ≤ i)) ∧
    (∀ b b2, b < b2 → b2 < reps.length → reps.getD b 0 < reps.getD b2 0) ∧
    (∀ i, 0 ≤ B i → B i < (sizes.length : Int)) ∧
    (∀ j, j < p → isBg j = false → 0 ≤ B j) ∧
    (∀ i j, 0 ≤ B i → j ∈ nbrs w h i → isBg j = false → 0 ≤ B j)

/-- Running the labelling scan from position `p` to the end of the image
carries `ScanInv` to `p = width·height`. -/
lemma blobScan_run (isBg : Nat → Bool) (w h : Nat) :
    ∀ n p (B : Nat → Int) (sizes : List Nat),
      p + n = w * h →
      ScanInv isBg w h p B sizes →
      ScanInv isBg w h (w * h) (blobScan isBg w h (List.range' p n) B sizes).1
        (blobScan isBg w h (List.range' p n) B sizes).2 := by
  intro n
  induction n with
  | zero =>
    intro p B sizes hpn hinv
    have hp : p = w * h := by omega
    subst hp
    exact hinv
  | succ n ih =>
    intro p B sizes hpn hinv
    rw [show List.range' p (n + 1) = p :: List.range' (p + 1) n from List.range'_succ p n 1]
    by_cases hsk : isBg p = true ∨ 0 ≤ B p
    · rw [show blobScan isBg w h (p :: List.range' (p + 1) n) B sizes =
          blobScan isBg w h (List.range' (p + 1) n) B sizes by simp [blobScan, hsk]]
      apply ih _ _ _ (by omega)
      obtain ⟨reps, hlen, hblob, hord, hO2, hO3, hO4⟩ := hinv
      refine ⟨reps, hlen, ?_, hord, hO2, ?_, hO4⟩
      · intro b hb
        obtain ⟨f1, f2, f3, f4, f5, f6⟩ := hblob b hb
        exact ⟨f1, f2, by omega, f4, f5, f6⟩
      · intro j hj hfg
        rcases Nat.lt_or_ge j p with hjp | hjp
        · exact hO3 j hjp hfg
        · have hjeq : j = p := by omega
          subst hjeq
          rcases hsk with h1 | h1
          · rw [hfg] at h1
            simp at h1
          · exact h1
    · have hsk0 := hsk
      push_neg at hsk
      obtain ⟨hfg2, hneg2⟩ := hsk
      have hfg : isBg p = false := by
        cases hb : isBg p
        · rfl
        · exact absurd hb hfg2
      have hlt : p < w * h := by omega
      obtain ⟨reps, hlen, hblob, hord, hO2, hO3, hO4⟩ := hinv
      have hcomp_unl : ∀ t, FgReach isBg w h p t → B t < 0 := comp_unlabeled hO4 hneg2
      have hinv0 : BlobInv isBg w h p B sizes.length B 0 [p] := by
        refine ⟨∅, ?_, ?_, ?_, ?_, ?_, ?_⟩
        · intro i; simp
        · simp
        · intro i hi; simp at hi
        · intro j hj
          simp at hj
          exact Or.inl hj
        · exact Or.inr (by simp)
        · intro i hi; simp at hi
      have hmeas : 5 * unlabeledCount w h B + ([p] : List Nat).length ≤ 5 * (w * h) + 1 := by
        have hcle := Finset.card_filter_le (Finset.range (w * h)) (fun i => B i < 0)
        rw [Finset.card_range] at hcle
        have : unlabeledCount w h B ≤ w * h := hcle
        simp only [List.length_cons, List.length_nil]
        omega
      obtain ⟨hinvF, hqF⟩ := blobLoop_run isBg w h p B sizes.length hlt hfg hcomp_unl
        (5 * (w * h) + 1) [p] B 0 hmeas hinv0
      rw [hqF] at hinvF
      obtain ⟨hcur, hold, Sf, hSf, hsizeF⟩ := blobInv_final hinvF
      rw [show blobScan isBg w h (p :: List.range' (p + 1) n) B sizes =
          blobScan isBg w h (List.range' (p + 1) n)
            (blobLoop isBg w h (5 * (w * h) + 1) [p] B sizes.length 0).1
            (sizes ++ [(blobLoop isBg w h (5 * (w * h) + 1) [p] B sizes.length 0).2.1]) by
        simp [blobScan, hsk0]]
      apply ih _ _ _ (by omega)
      refine ⟨reps ++ [p], by simp [hlen], ?_, ?_, ?_, ?_, ?_⟩
      · intro b hb
        simp only [List.length_append, List.length_cons, List.length_nil] at hb
        rcases Nat.lt_or_ge b reps.length with hbl | hbl
        · -- a previously existing blob id
          obtain ⟨f1, f2, f3, f4, f5, f6⟩ := hblob b hbl
          rw [getD_snoc_lt reps p b hbl]
          rw [getD_snoc_lt sizes _ b (by omega)]
          refine ⟨f1, f2, by omega, ?_, f5, f6⟩
          intro i
          by_cases hpi : FgReach isBg w h p i
          · rw [hcur i hpi]
            have hne : (sizes.length : Int) ≠ (b : Int) := by
              have : b < sizes.length := by omega
              exact_mod_cast Nat.ne_of_gt this
            constructor
            · intro habs
              exact absurd habs hne
            · intro hri
              have hrp : FgReach isBg w h (reps.getD b 0) p :=
                ReachThru.trans hri (ReachThru.symm hpi)
              have : B p = (b : Int) := (f4 p).mpr hrp
              omega
          · rw [hold i hpi]
            exact f4 i
        · -- the freshly created blob id
          have hbe : b = reps.length := by omega
          subst hbe
          rw [getD_snoc_last reps p]
          refine ⟨hlt, hfg, by omega, ?_, ?_, ?_⟩
          · intro i
            constructor
            · intro hri
              by_contra hpi
              rw [hold i hpi] at hri
              rcases le_or_lt 0 (B i) with hbi | hbi
              · have hup := hO2 i hbi
                rw [hri, hlen] at hup
                omega
              · rw [hri] at hbi
                omega
            · intro hpi
              rw [hcur i hpi]
              exact_mod_cast hlen.symm
          · refine ⟨Sf, hSf, ?_⟩
            rw [show reps.length = sizes.length from hlen, getD_snoc_last sizes _]
            exact hsizeF
          · intro i hri
            by_contra hip
            push_neg at hip
            have hfgi : isBg i = false := hri.tgt_lt.2
            have h1 := hO3 i (by omega) hfgi
            have h2 := hcomp_unl i hri
            omega
      · -- the blob ids remain ordered by first-encountered representative
        intro b b2 hbb hb2
        simp only [List.length_append, List.length_cons, List.length_nil] at hb2
        rcases Nat.lt_or_ge b2 reps.length with hb2l | hb2l
        · rw [getD_snoc_lt reps p b (by omega), getD_snoc_lt reps p b2 hb2l]
          exact hord b b2 hbb hb2l
        · have hbe : b2 = reps.length := by omega
          subst hbe
          rw [getD_snoc_lt reps p b (by omega), getD_snoc_last reps p]
          exact (hblob b (by omega)).2.2.1
      · -- labels stay below the number of blobs
        intro i hi
        simp only [List.length_append, List.length_cons, List.length_nil]
        by_cases hpi : FgReach isBg w h p i
        · rw [hcur i hpi]
          push_cast
          omega
        · rw [hold i hpi] at hi ⊢
          have hup := hO2 i hi
          push_cast
          omega
      · -- every foreground pixel below p+1 is labelled
        intro j hj hfgj
        rcases Nat.lt_or_ge j p with hjp | hjp
        · have hBj := hO3 j hjp hfgj
          by_cases hpj : FgReach isBg w h p j
          · rw [hcur j hpj]
            omega
          · rw [hold j hpj]
            exact hBj
        · have hje : j = p := by omega
          subst hje
          rw [hcur j (ReachThru.refl hlt hfg)]
          omega
      · -- the labelled set stays closed under foreground adjacency
        intro i j hi hjn hfgj
        by_cases hpi : FgReach isBg w h p i
        · have hpj : FgReach isBg w h p j := ReachThru.tail hpi hjn hfgj
          rw [hcur j hpj]
          omega
        · rw [hold i hpi] at hi
          by_cases hpj : FgReach isBg w h p j
          · rw [hcur j hpj]
            omega
          · rw [hold j hpj]
            exact hO4 i j hi hjn hfgj

/-- The fold of `largestBlobIdx` keeps the first index attaining the
maximal size seen so far. -/
lemma largest_fold (sizes : List Nat) :
    ∀ n s acc, acc < s →
      (∀ b, b < s → sizes.getD b 0 ≤ sizes.getD acc 0) →
      (∀ b, b < s → sizes.getD b 0 = sizes.getD acc 0 → acc ≤ b) →
      ∃ r, (List.range' s n).foldl
          (fun largestBlob b => if sizes.getD b 0 > sizes.getD largestBlob 0 then b
            else largestBlob) acc = r ∧
        r < s + n ∧ (∀ b, b < s + n → sizes.getD b 0 ≤ sizes.getD r 0) ∧
        (∀ b, b < s + n → sizes.getD b 0 = sizes.getD r 0 → r ≤ b) := by
  intro n
  induction n with
  | zero =>
    intro s acc hacc hmax htie
    exact ⟨acc, rfl, by omega, fun b hb => hmax b (by omega),
      fun b hb ht => htie b (by omega) ht⟩
  | succ n ih =>
    intro s acc hacc hmax htie
    rw [show List.range' s (n + 1) = s :: List.range' (s + 1) n from List.range'_succ s n 1]
    rw [List.foldl_cons]
    by_cases hgt : sizes.getD s 0 > sizes.getD acc 0
    · rw [if_pos hgt]
      obtain ⟨r, hr, h1, h2, h3⟩ := ih (s + 1) s (by omega)
        (fun b hb => by
          rcases Nat.lt_or_ge b s with hbs | hbs
          · exact le_of_lt (lt_of_le_of_lt (hmax b hbs) hgt)
          · have : b = s := by omega
            subst this
            exact le_refl _)
        (fun b hb ht => by
          rcases Nat.lt_or_ge b s with hbs | hbs
          · have := hmax b hbs
            omega
          · omega)
      exact ⟨r, hr, by omega, fun b hb => h2 b (by omega), fun b hb ht => h3 b (by omega) ht⟩
    · rw [if_neg hgt]
      obtain ⟨r, hr, h1, h2, h3⟩ := ih (s + 1) acc (by omega)
        (fun b hb => by
          rcases Nat.lt_or_ge b s with hbs | hbs
          · exact hmax b hbs
          · have : b = s := by omega
            subst this
            omega)
        (fun b hb ht => by
          rcases Nat.lt_or_ge b s with hbs | hbs
          · exact htie b hbs ht
          · omega)
      exact ⟨r, hr, by omega, fun b hb => h2 b (by omega), fun b hb ht => h3 b (by omega) ht⟩

/-- `largestBlobIdx` returns the first index attaining the maximal size. -/
lemma largestBlobIdx_spec (sizes : List Nat) (hne : 0 < sizes.length) :
    largestBlobIdx sizes < sizes.length ∧
    (∀ b, b < sizes.length → sizes.getD b 0 ≤ sizes.getD (largestBlobIdx sizes) 0) ∧
    (∀ b, b < sizes.length → sizes.getD b 0 = sizes.getD (largestBlobIdx sizes) 0 →
      largestBlobIdx sizes ≤ b) := by
  obtain ⟨r, hr, h1, h2, h3⟩ := largest_fold sizes (sizes.length - 1) 1 0 (by omega)
    (fun b hb => by
      have : b = 0 := by omega
      subst this
      exact le_refl _)
    (fun b hb _ => by omega)
  unfold largestBlobIdx
  rw [hr]
  have hlen : 1 + (sizes.length - 1) = sizes.length := by omega
  rw [hlen] at h1 h2 h3
  exact ⟨h1, h2, h3⟩

/-- C6: if the mask has at least one foreground pixel, `keepLargestBlob`
keeps exactly one 4-connected foreground component — one of maximal pixel
count, and among maximal ones the one whose representative (its least
row-major index) comes first in scan order — and marks every other
foreground pixel as background, leaving background pixels background. -/
theorem keepLargestBlob_spec (isBg : Nat → Bool) (w h f : Nat)
    (hf_lt : f < w * h) (hf_fg : isBg f = false) :
    ∃ rep, rep < w * h ∧ isBg rep = false ∧
      (∀ i, FgReach isBg w h rep i → (keepLargestBlob isBg w h).1 i = false) ∧
      (∀ i, i < w * h → isBg i = false → ¬ FgReach isBg w h rep i →
        (keepLargestBlob isBg w h).1 i = true) ∧
      (∀ i, isBg i = true → (keepLargestBlob isBg w h).1 i = true) ∧
      (∀ j, j < w * h → isBg j = false →
        Set.ncard {i | FgReach isBg w h j i} ≤ Set.ncard {i | FgReach isBg w h rep i}) ∧
      (∀ j, j < w * h → isBg j = false →
        Set.ncard {i | FgReach isBg w h j i} = Set.ncard {i | FgReach isBg w h rep i} →
        ∀ k, FgReach isBg w h j k → rep ≤ k) := by
  have hinv0 : ScanInv isBg w h 0 (fun _ => (-1 : Int)) [] := by
    refine ⟨[], rfl, ?_, ?_, ?_, ?_, ?_⟩
    · intro b hb
      simp at hb
    · intro b b2 hbb hb2
      simp at hb2
    · intro i hi
      simp at hi
    · intro j hj hfgj
      omega
    · intro i j hi hjn hfgj
      simp at hi
  have hscan := blobScan_run isBg w h (w * h) 0 (fun _ => (-1 : Int)) [] (by omega) hinv0
  rw [← List.range_eq_range'] at hscan
  set R := blobScan isBg w h (List.range (w * h)) (fun _ => (-1 : Int)) [] with hR
  obtain ⟨reps, hlen, hblob, hord, hO2, hO3, hO4⟩ := hscan
  have hBf : 0 ≤ R.1 f := hO3 f hf_lt hf_fg
  have hlenpos : 0 < R.2.length := by
    have hup := hO2 f hBf
    rcases Nat.eq_zero_or_pos R.2.length with h0 | h0
    · rw [h0] at hup
      simp at hup
      omega
    · exact h0
  have hmaskne : ¬ (R.2.length = 0) := by omega
  obtain ⟨hL, hLmax, hLfirst⟩ := largestBlobIdx_spec R.2 hlenpos
  set L := largestBlobIdx R.2 with hLdef
  obtain ⟨g1, g2, g3, g4, g5, g6⟩ := hblob L (by omega)
  have hmask : ∀ i, (keepLargestBlob isBg w h).1 i =
      if i < w * h ∧ isBg i = false ∧ R.1 i ≠ (L : Int) then true else isBg i := by
    intro i
    simp only [keepLargestBlob]
    rw [← hR, if_neg hmaskne]
  refine ⟨reps.getD L 0, g1, g2, ?_, ?_, ?_, ?_, ?_⟩
  · -- pixels of the kept component stay foreground
    intro i hri
    have hBi : R.1 i = (L : Int) := (g4 i).mpr hri
    rw [hmask i, if_neg (fun hand => hand.2.2 hBi)]
    exact hri.tgt_lt.2
  · -- foreground pixels outside the kept component become background
    intro i hi hfgi hnri
    have hne : R.1 i ≠ (L : Int) := fun heq => hnri ((g4 i).mp heq)
    rw [hmask i, if_pos ⟨hi, hfgi, hne⟩]
  · -- background pixels stay background
    intro i hbgi
    rw [hmask i, if_neg (fun hand => by
      rw [hbgi] at hand
      exact absurd hand.2.1 (by simp))]
    exact hbgi
  · -- the kept component has maximal pixel count
    intro j hj hfgj
    have hBj : 0 ≤ R.1 j := hO3 j hj hfgj
    have hBjb : R.1 j = (((R.1 j).toNat : Nat) : Int) := (Int.toNat_of_nonneg hBj).symm
    have hup := hO2 j hBj
    have hblt : (R.1 j).toNat < R.2.length := by
      rw [hBjb] at hup
      exact_mod_cast hup
    obtain ⟨k1, k2, k3, k4, k5, k6⟩ := hblob (R.1 j).toNat (by omega)
    have hrbj : FgReach isBg w h (reps.getD (R.1 j).toNat 0) j := (k4 j).mp hBjb
    have hseteq : {i | FgReach isBg w h j i} =
        {i | FgReach isBg w h (reps.getD (R.1 j).toNat 0) i} := by
      ext i
      simp only [Set.mem_setOf_eq]
      exact ⟨fun hji => ReachThru.trans hrbj hji,
        fun hri => ReachThru.trans (ReachThru.symm hrbj) hri⟩
    obtain ⟨Sb, hSb, hSbcard⟩ := k5
    obtain ⟨SL, hSL, hSLcard⟩ := g5
    have hncb : Set.ncard {i | FgReach isBg w h (reps.getD (R.1 j).toNat 0) i} =
        R.2.getD (R.1 j).toNat 0 := by
      have hset2 : {i | FgReach isBg w h (reps.getD (R.1 j).toNat 0) i} = (Sb : Set Nat) := by
        ext i
        simp [hSb]
      rw [hset2, Set.ncard_coe_Finset, hSbcard]
    have hncL : Set.ncard {i | FgReach isBg w h (reps.getD L 0) i} = R.2.getD L 0 := by
      have hset2 : {i | FgReach isBg w h (reps.getD L 0) i} = (SL : Set Nat) := by
        ext i
        simp [hSL]
      rw [hset2, Set.ncard_coe_Finset, hSLcard]
    rw [hseteq, hncb, hncL]
    exact hLmax (R.1 j).toNat hblt
  · -- tie-break: the kept representative is least in row-major order
    intro j hj hfgj hcard k hjk
    have hBj : 0 ≤ R.1 j := hO3 j hj hfgj
    have hBjb : R.1 j = (((R.1 j).toNat : Nat) : Int) := (Int.toNat_of_nonneg hBj).symm
    have hup := hO2 j hBj
    have hblt : (R.1 j).toNat < R.2.length := by
      rw [hBjb] at hup
      exact_mod_cast hup
    obtain ⟨k1, k2, k3, k4, k5, k6⟩ := hblob (R.1 j).toNat (by omega)
    have hrbj : FgReach isBg w h (reps.getD (R.1 j).toNat 0) j := (k4 j).mp hBjb
    have hseteq : {i | FgReach isBg w h j i} =
        {i | FgReach isBg w h (reps.getD (R.1 j).toNat 0) i} := by
      ext i
      simp only [Set.mem_setOf_eq]
      exact ⟨fun hji => ReachThru.trans hrbj hji,
        fun hri => ReachThru.trans (ReachThru.symm hrbj) hri⟩
    obtain ⟨Sb, hSb, hSbcard⟩ := k5
    obtain ⟨SL, hSL, hSLcard⟩ := g5
    have hncb : Set.ncard {i | FgReach isBg w h (reps.getD (R.1 j).toNat 0) i} =
        R.2.getD (R.1 j).toNat 0 := by
      have hset2 : {i | FgReach isBg w h (reps.getD (R.1 j).toNat 0) i} = (Sb : Set Nat) := by
        ext i
        simp [hSb]
      rw [hset2, Set.ncard_coe_Finset, hSbcard]
    have hncL : Set.ncard {i | FgReach isBg w h (reps.getD L 0) i} = R.2.getD L 0 := by
      have hset2 : {i | FgReach isBg w h (reps.getD L 0) i} = (SL : Set Nat) := by
        ext i
        simp [hSL]
      rw [hset2, Set.ncard_coe_Finset, hSLcard]
    rw [hseteq, hncb, hncL] at hcard
    have hLle : L ≤ (R.1 j).toNat := hLfirst (R.1 j).toNat hblt hcard
    rcases Nat.eq_or_lt_of_le hLle with heq | hlt2
    · -- same blob: the kept representative is minimal in its own component
      rw [← heq] at hrbj
      exact g6 k (ReachThru.trans hrbj hjk)
    · -- a later blob: its representative already exceeds the kept one
      have hrblt := hord L (R.1 j).toNat hlt2 (by omega)
      have hrbk : FgReach isBg w h (reps.getD (R.1 j).toNat 0) k :=
        ReachThru.trans hrbj hjk
      have := k6 k hrbk
      omega

/-- Witness for `keepLargestBlob_spec` on a 1-by-1 all-foreground image. -/
theorem keepLargestBlob_spec_witness :
    ((0:Nat) < 1 * 1 ∧ (fun _ : Nat => false) 0 = false) ∧
      (∃ rep, rep < 1 * 1 ∧ (fun _ : Nat => false) rep = false ∧
        (∀ i, FgReach (fun _ => false) 1 1 rep i →
          (keepLargestBlob (fun _ => false) 1 1).1 i = false) ∧
        (∀ i, i < 1 * 1 → (fun _ : Nat => false) i = false →
          ¬ FgReach (fun _ => false) 1 1 rep i →
          (keepLargestBlob (fun _ => false) 1 1).1 i = true) ∧
        (∀ i, (fun _ : Nat => false) i = true →
          (keepLargestBlob (fun _ => false) 1 1).1 i = true) ∧
        (∀ j, j < 1 * 1 → (fun _ : Nat => false) j = false →
          Set.ncard {i | FgReach (fun _ => false) 1 1 j i} ≤
            Set.ncard {i | FgReach (fun _ => false) 1 1 rep i}) ∧
        (∀ j, j < 1 * 1 → (fun _ : Nat => false) j = false →
          Set.ncard {i | FgReach (fun _ => false) 1 1 j i} =
            Set.ncard {i | FgReach (fun _ => false) 1 1 rep i} →
          ∀ k, FgReach (fun _ => false) 1 1 j k → rep ≤ k)) :=
  ⟨⟨by decide, rfl⟩, keepLargestBlob_spec (fun _ => false) 1 1 0 (by decide) rfl⟩

/-- The window offsets `-2, -1, 0, 1, 2` of the feather search
(`for dy = -radius; dy <= radius; dy++` with the call site's `radius = 2`). -/
def featherOffsets : List Int := (List.range 5).map (fun k => (k : Int) - 2)

/-- Squared distance from pixel `i` to the nearest background pixel inside
the radius-2 window (src/remove-grey-bg.js:86-108).  The source stores
`Math.sqrt(dx*dx + dy*dy)` into a `Float32Array` filled with 999 and takes
running minima; the square root is strictly monotone on the window's
finite domain of squared distances, so the minimum is determined by the
squared distances, modelled here with the sentinel `999² = 998001`.  A
background pixel gets distance 0 through the early `continue`.  The source
precomputes the whole array in a first pass and reads it in the second;
the mask is not modified in between, so the array entry equals this
per-pixel function. -/
def edgeDistSq (isBg : Nat → Bool) (w h i : Nat) : Nat :=
  if isBg i = true then 0
  else
    featherOffsets.foldl (fun acc dy =>
      featherOffsets.foldl (fun acc dx =>
        if ((i % w : Nat) : Int) + dx < 0 ∨ (w : Int) ≤ ((i % w : Nat) : Int) + dx ∨
            ((i / w : Nat) : Int) + dy < 0 ∨ (h : Int) ≤ ((i / w : Nat) : Int) + dy then acc
        else if isBg ((((i / w : Nat) : Int) + dy) * (w : Int) +
            (((i % w : Nat) : Int) + dx)).toNat = true then
          min acc (dx * dx + dy * dy).toNat
        else acc) acc) 998001

/-- The feathered alpha `Math.min(255, Math.round(edgeDistance / radius * 255))`
(src/remove-grey-bg.js:120) at `radius = 2`, tabulated over the achievable
sub-radius squared distances: `√0/2·255 = 0`; `√1/2·255 = 127.5`, which
`Math.round` rounds to 128; `√2/2·255 = 180.31…` (also with `√2` rounded
to float32 by the `Float32Array`) rounds to 180.  No other squared
distance is below 4 (3 is not a sum of two squares of window offsets), so
the catch-all branch is never consulted by the guarded caller. -/
def featherAlpha (d2 : Nat) : Nat :=
  match d2 with
  | 0 => 0
  | 1 => 128
  | 2 => 180
  | _ => 255

/-- One iteration of the alpha-writing loop of `applyEdgeSmoothing`
(src/remove-grey-bg.js:112-124): background pixels get alpha 0 and are
counted in `removedPixels`; foreground pixels strictly inside the feather
radius (`edgeDistance[i] < radius`, i.e. squared distance below 4) get the
feathered alpha; all other pixels are untouched. -/
def smoothStep (isBg : Nat → Bool) (w h c : Nat) (acc : (Nat → Nat) × Nat) (i : Nat) :
    (Nat → Nat) × Nat :=
  if isBg i = true then
    ((fun k => if k = i * c + 3 then 0 else acc.1 k), acc.2 + 1)
  else if edgeDistSq isBg w h i < 4 then
    ((fun k => if k = i * c + 3 then featherAlpha (edgeDistSq isBg w h i) else acc.1 k),
      acc.2)
  else acc

/-- Translation of `applyEdgeSmoothing` (src/remove-grey-bg.js:84-127) at
the pipeline's feather radius 2, returning the updated buffer and
`removedPixels`. -/
def applyEdgeSmoothing (data : Nat → Nat) (isBg : Nat → Bool) (w h c : Nat) :
    (Nat → Nat) × Nat :=
  (List.range (w * h)).foldl (smoothStep isBg w h c) (data, 0)

/-- Characterization of the alpha-writing fold: bytes other than the alpha
bytes of scanned pixels are untouched, each scanned pixel's alpha byte gets
the per-pixel value, and the counter accumulates the background count. -/
lemma smoothFold_spec (data : Nat → Nat) (isBg : Nat → Bool) (w h c : Nat) (hc : 0 < c) :
    ∀ n s (d : Nat → Nat) (r : Nat),
      (∀ k, (∀ i, s ≤ i → i < s + n → k ≠ i * c + 3) →
        ((List.range' s n).foldl (smoothStep isBg w h c) (d, r)).1 k = d k) ∧
      (∀ i, s ≤ i → i < s + n →
        ((List.range' s n).foldl (smoothStep isBg w h c) (d, r)).1 (i * c + 3) =
          (if isBg i = true then 0
           else if edgeDistSq isBg w h i < 4 then featherAlpha (edgeDistSq isBg w h i)
           else d (i * c + 3))) ∧
      ((List.range' s n).foldl (smoothStep isBg w h c) (d, r)).2 =
        r + ((List.range' s n).filter (fun i => isBg i)).length := by
  intro n
  induction n with
  | zero =>
    intro s d r
    refine ⟨fun k hk => rfl, fun i hi1 hi2 => by omega, by simp⟩
  | succ n ih =>
    intro s d r
    rw [show List.range' s (n + 1) = s :: List.range' (s + 1) n from List.range'_succ s n 1]
    rw [List.foldl_cons]
    have hkey : ∀ i2, s + 1 ≤ i2 → s * c + 3 ≠ i2 * c + 3 := by
      intro i2 hi2 heq
      have : s * c = i2 * c := by omega
      have hii : s = i2 := Nat.eq_of_mul_eq_mul_right hc this
      omega
    have hstep1 : (smoothStep isBg w h c (d, r) s).1 (s * c + 3) =
        (if isBg s = true then 0
         else if edgeDistSq isBg w h s < 4 then featherAlpha (edgeDistSq isBg w h s)
         else d (s * c + 3)) := by
      unfold smoothStep
      split
      · simp
      · split
        · simp
        · rfl
    have hstep2 : ∀ k, k ≠ s * c + 3 → (smoothStep isBg w h c (d, r) s).1 k = d k := by
      intro k hk
      unfold smoothStep
      split
      · simp [hk]
      · split
        · simp [hk]
        · rfl
    have hstep3 : (smoothStep isBg w h c (d, r) s).2 = r + (if isBg s = true then 1 else 0) := by
      unfold smoothStep
      split
      · simp
      · split
        · simp
        · simp
    obtain ⟨ih1, ih2, ih3⟩ := ih (s + 1) (smoothStep isBg w h c (d, r) s).1
      (smoothStep isBg w h c (d, r) s).2
    have hfold : (List.range' (s + 1) n).foldl (smoothStep isBg w h c)
        ((smoothStep isBg w h c (d, r) s).1, (smoothStep isBg w h c (d, r) s).2) =
        (List.range' (s + 1) n).foldl (smoothStep isBg w h c)
          (smoothStep isBg w h c (d, r) s) := by
      rfl
    refine ⟨?_, ?_, ?_⟩
    · intro k hk
      rw [← hfold, ih1 k (fun i hi1 hi2 => hk i (by omega) (by omega))]
      exact hstep2 k (hk s (by omega) (by omega))
    · intro i hi1 hi2
      rcases Nat.eq_or_lt_of_le hi1 with heq | hlt
      · subst heq
        rw [← hfold, ih1 (s * c + 3) (fun i2 hi21 hi22 => hkey i2 hi21)]
        exact hstep1
      · rw [← hfold, ih2 i (by omega) (by omega)]
        have hne : i * c + 3 ≠ s * c + 3 := fun heq => by
          have : i * c = s * c := by omega
          have : i = s := Nat.eq_of_mul_eq_mul_right hc this
          omega
        rw [hstep2 (i * c + 3) hne]
    · rw [← hfold, ih3, hstep3]
      rw [List.filter_cons]
      split
      · simp
        omega
      · omega

/-- The possible values of `edgeDistSq`: squared window distances and the
sentinel. -/
def d2Allowed (n : Nat) : Prop :=
  n = 0 ∨ n = 1 ∨ n = 2 ∨ n = 4 ∨ n = 5 ∨ n = 8 ∨ n = 998001

lemma d2Allowed_offsets {dx dy : Int} (hx : dx ∈ featherOffsets) (hy : dy ∈ featherOffsets) :
    d2Allowed ((dx * dx + dy * dy).toNat) := by
  fin_cases hx <;> fin_cases hy <;> (unfold d2Allowed; decide)

lemma foldl_preserve (P : Nat → Prop) (f : Nat → Int → Nat) :
    ∀ (l : List Int), (∀ acc d, d ∈ l → P acc → P (f acc d)) →
      ∀ acc, P acc → P (l.foldl f acc) := by
  intro l
  induction l with
  | nil =>
    intro hf acc hacc
    exact hacc
  | cons a l ih =>
    intro hf acc hacc
    rw [List.foldl_cons]
    exact ih (fun acc2 d hd h2 => hf acc2 d (List.mem_cons_of_mem a hd) h2) (f acc a)
      (hf acc a (List.mem_cons_self a l) hacc)

lemma edgeDistSq_allowed (isBg : Nat → Bool) (w h i : Nat) :
    d2Allowed (edgeDistSq isBg w h i) := by
  unfold edgeDistSq
  split
  · exact Or.inl rfl
  · apply foldl_preserve
    · intro acc dy hdy hacc
      apply foldl_preserve
      · intro acc2 dx hdx hacc2
        split
        · exact hacc2
        · split
          · rcases min_choice acc2 ((dx * dx + dy * dy).toNat) with hm | hm
            · rw [hm]
              exact hacc2
            · rw [hm]
              exact d2Allowed_offsets hdx hdy
          · exact hacc2
      · exact hacc
    · unfold d2Allowed
      decide

lemma featherAlpha_mono {a b : Nat} (ha : d2Allowed a) (hb : d2Allowed b)
    (ha4 : a < 4) (hb4 : b < 4) (hab : a ≤ b) : featherAlpha a ≤ featherAlpha b := by
  rcases ha with rfl | rfl | rfl | rfl | rfl | rfl | rfl <;>
    rcases hb with rfl | rfl | rfl | rfl | rfl | rfl | rfl <;>
      first
        | omega
        | decide

/-- C7: after `applyEdgeSmoothing` with feather radius 2, every
background-mask pixel has alpha 0; every foreground pixel whose minimum
Euclidean distance to a background pixel within the search window is at
least the radius (squared distance at least 4) keeps its prior alpha byte
(255 after `ensureAlpha` in the pipeline); and among foreground pixels
strictly inside the radius, alpha is monotone in that distance (compared
through the squared distance, equivalently since squaring is monotone). -/
theorem applyEdgeSmoothing_spec (data : Nat → Nat) (isBg : Nat → Bool) (w h c : Nat)
    (hc : 3 < c) :
    (∀ i, i < w * h → isBg i = true →
      (applyEdgeSmoothing data isBg w h c).1 (i * c + 3) = 0) ∧
    (∀ i, i < w * h → isBg i = false → 4 ≤ edgeDistSq isBg w h i →
      (applyEdgeSmoothing data isBg w h c).1 (i * c + 3) = data (i * c + 3)) ∧
    (∀ i j, i < w * h → j < w * h → isBg i = false → isBg j = false →
      edgeDistSq isBg w h i < 4 → edgeDistSq isBg w h j < 4 →
      edgeDistSq isBg w h i ≤ edgeDistSq isBg w h j →
      (applyEdgeSmoothing data isBg w h c).1 (i * c + 3) ≤
        (applyEdgeSmoothing data isBg w h c).1 (j * c + 3)) := by
  have hc1 : 0 < c := by omega
  obtain ⟨hf1, hf2, hf3⟩ := smoothFold_spec data isBg w h c hc1 (w * h) 0 data 0
  have hrw : applyEdgeSmoothing data isBg w h c =
      (List.range' 0 (w * h)).foldl (smoothStep isBg w h c) (data, 0) := by
    unfold applyEdgeSmoothing
    rw [List.range_eq_range']
  refine ⟨?_, ?_, ?_⟩
  · intro i hi hbg
    rw [hrw, hf2 i (by omega) (by omega), if_pos hbg]
  · intro i hi hbg hd
    rw [hrw, hf2 i (by omega) (by omega), if_neg (by rw [hbg]; simp),
      if_neg (by omega)]
  · intro i j hi hj hbgi hbgj hdi hdj hij
    rw [hrw, hf2 i (by omega) (by omega), hf2 j (by omega) (by omega), hbgi, hbgj]
    simp only [Bool.false_eq_true, if_false, if_pos hdi, if_pos hdj]
    exact featherAlpha_mono (edgeDistSq_allowed isBg w h i) (edgeDistSq_allowed isBg w h j)
      hdi hdj hij

/-- Witness for `applyEdgeSmoothing_spec` on a 2-by-1 image whose left
pixel is background. -/
theorem applyEdgeSmoothing_spec_witness :
    3 < 4 ∧
      ((∀ i, i < 2 * 1 → (fun k : Nat => decide (k = 0)) i = true →
        (applyEdgeSmoothing (fun _ => 255) (fun k => decide (k = 0)) 2 1 4).1 (i * 4 + 3) = 0) ∧
      (∀ i, i < 2 * 1 → (fun k : Nat => decide (k = 0)) i = false →
        4 ≤ edgeDistSq (fun k => decide (k = 0)) 2 1 i →
        (applyEdgeSmoothing (fun _ => 255) (fun k => decide (k = 0)) 2 1 4).1 (i * 4 + 3) =
          (fun _ : Nat => 255) (i * 4 + 3)) ∧
      (∀ i j, i < 2 * 1 → j < 2 * 1 → (fun k : Nat => decide (k = 0)) i = false →
        (fun k : Nat => decide (k = 0)) j = false →
        edgeDistSq (fun k => decide (k = 0)) 2 1 i < 4 →
        edgeDistSq (fun k => decide (k = 0)) 2 1 j < 4 →
        edgeDistSq (fun k => decide (k = 0)) 2 1 i ≤ edgeDistSq (fun k => decide (k = 0)) 2 1 j →
        (applyEdgeSmoothing (fun _ => 255) (fun k => decide (k = 0)) 2 1 4).1 (i * 4 + 3) ≤
          (applyEdgeSmoothing (fun _ => 255) (fun k => decide (k = 0)) 2 1 4).1 (j * 4 + 3))) :=
  ⟨by decide, applyEdgeSmoothing_spec (fun _ => 255) (fun k => decide (k = 0)) 2 1 4 (by decide)⟩

/-- The four pixel stages of `removeBackground`
(src/remove-grey-bg.js:246-256) on a decoded RGBA buffer: flood fill,
density shadow cleanup, largest-blob selection, edge smoothing.  Returns
`(data, mask, removedPixels, extraRemoved, shadowCleaned)`, where `mask`
is the background mask after the third stage — the edge-smoothing stage
reads it but never writes it. -/
def removeBackgroundCore (data : Nat → Nat) (w h c : Nat) :
    (Nat → Nat) × (Nat → Bool) × Nat × Nat × Nat :=
  let isBg0 := floodFillBackground data w h c
  let dsc := densityShadowCleanup data isBg0 w h c
  let klb := keepLargestBlob dsc.1 w h
  let aes := applyEdgeSmoothing data klb.1 w h c
  (aes.1, klb.1, aes.2, klb.2, dsc.2)

/-- Result of `removeBackground` (src/remove-grey-bg.js:236-271) on a
decoded buffer.  The pixel pipeline is total, so the `try` block cannot
throw on pixel processing; file decoding, resizing and encoding are
I/O delegated to the `sharp` library and outside this embedding, so
`success` is true.  `percentRemoved` is the exact rational value of
`(allRemoved / totalPixels) * 100` with
`allRemoved = removedPixels + extraRemoved + shadowCleaned` (line 265);
the source then formats it with `toFixed(1)`. -/
structure RemoveResult where
  success : Bool
  percentRemoved : ℚ

def removeBackground (data : Nat → Nat) (w h c : Nat) : RemoveResult :=
  let core := removeBackgroundCore data w h c
  { success := true
    percentRemoved :=
      (((core.2.2.1 + core.2.2.2.1 + core.2.2.2.2 : Nat) : ℚ) / ((w * h : Nat) : ℚ)) * 100 }

lemma densityLoop_mono (data : Nat → Nat) (w h c : Nat) :
    ∀ n (m : Nat → Bool) acc i, m i = true → (densityLoop data w h c n m acc).1 i = true := by
  intro n
  induction n with
  | zero =>
    intro m acc i hm
    exact hm
  | succ n ih =>
    intro m acc i hm
    by_cases hq : densityQueueList data m w h c = []
    · simp only [densityLoop, hq, if_pos]
      exact hm
    · rw [show (densityLoop data w h c (n + 1) m acc) =
          densityLoop data w h c n (commitList m (densityQueueList data m w h c))
            (acc + (densityQueueList data m w h c).length) by
        simp [densityLoop, hq]]
      apply ih
      rw [commitList_apply]
      simp [hm]

lemma keepLargestBlob_mono (isBg : Nat → Bool) (w h i : Nat) (hm : isBg i = true) :
    (keepLargestBlob isBg w h).1 i = true := by
  simp only [keepLargestBlob]
  split
  · exact hm
  · simp only
    split
    · rfl
    · exact hm

/-- C3: the background mask grows monotonically through the post-flood
stages: a pixel marked background before `densityShadowCleanup` is still
marked after it, likewise through `keepLargestBlob`, and the edge-smoothing
stage never writes the mask at all — the pipeline's final mask is exactly
the mask produced by the `keepLargestBlob` stage (third conjunct, which
holds definitionally of `removeBackgroundCore` because
`applyEdgeSmoothing` only reads the mask). -/
theorem mask_monotone (data : Nat → Nat) (isBg : Nat → Bool) (w h c i : Nat)
    (hm : isBg i = true) :
    (densityShadowCleanup data isBg w h c).1 i = true ∧
    (keepLargestBlob isBg w h).1 i = true ∧
    (removeBackgroundCore data w h c).2.1 i =
      (keepLargestBlob (densityShadowCleanup data (floodFillBackground data w h c) w h c).1
        w h).1 i :=
  ⟨densityLoop_mono data w h c 5 isBg 0 i hm, keepLargestBlob_mono isBg w h i hm, rfl⟩

/-- Witness for `mask_monotone` on a 1-by-1 all-background mask. -/
theorem mask_monotone_witness :
    (fun _ : Nat => true) 0 = true ∧
      ((densityShadowCleanup (fun _ => 112) (fun _ => true) 1 1 4).1 0 = true ∧
        (keepLargestBlob (fun _ => true) 1 1).1 0 = true ∧
        (removeBackgroundCore (fun _ => 112) 1 1 4).2.1 0 =
          (keepLargestBlob
            (densityShadowCleanup (fun _ => 112)
              (floodFillBackground (fun _ => 112) 1 1 4) 1 1 4).1 1 1).1 0) :=
  ⟨rfl, mask_monotone (fun _ => 112) (fun _ => true) 1 1 4 0 rfl⟩

/-- The pure k-fold iterate of one cleanup pass: queue from the current
mask, then commit. -/
def densityIter (data : Nat → Nat) (w h c : Nat) : Nat → (Nat → Bool) → (Nat → Bool)
  | 0, m => m
  | k + 1, m => densityIter data w h c k (commitList m (densityQueueList data m w h c))

lemma densityIter_stable (data : Nat → Nat) (w h c : Nat) :
    ∀ k (m : Nat → Bool), densityQueueList data m w h c = [] →
      densityIter data w h c k m = m := by
  intro k
  induction k with
  | zero =>
    intro m hq
    rfl
  | succ k ih =>
    intro m hq
    show densityIter data w h c k (commitList m (densityQueueList data m w h c)) = m
    rw [hq]
    exact ih m hq

lemma densityLoop_eq_iter (data : Nat → Nat) (w h c : Nat) :
    ∀ n (m : Nat → Bool) acc,
      (densityLoop data w h c n m acc).1 = densityIter data w h c n m := by
  intro n
  induction n with
  | zero =>
    intro m acc
    rfl
  | succ n ih =>
    intro m acc
    by_cases hq : densityQueueList data m w h c = []
    · simp only [densityLoop, hq, if_pos]
      exact (densityIter_stable data w h c (n + 1) m hq).symm
    · rw [show (densityLoop data w h c (n + 1) m acc) =
          densityLoop data w h c n (commitList m (densityQueueList data m w h c))
            (acc + (densityQueueList data m w h c).length) by
        simp [densityLoop, hq]]
      exact ih (commitList m (densityQueueList data m w h c)) _

/-- C5: the shadow-cleanup pass structure.  First conjunct: a pass commits
exactly the queued pixels on top of the start-of-pass mask (all queued
pixels are committed together, and by `mem_densityQueueList` membership in
the queue is a function of the start-of-pass mask alone, so the committed
result is independent of scan order).  Second conjunct: the cleanup's
final mask is the exact 5-fold iterate of the pass — the loop runs at most
`passes = 5` passes.  Third conjunct: whenever a pass starts from a mask whose scan queues
nothing, the remaining loop returns immediately with that mask and
accumulator unchanged (early termination as soon as a pass finds nothing;
`densityShadowCleanup` is `densityLoop` at 5 passes and accumulator 0). -/
theorem densityShadowCleanup_passes (data : Nat → Nat) (isBg : Nat → Bool) (w h c : Nat) :
    (∀ i, commitList isBg (densityQueueList data isBg w h c) i =
      (isBg i || decide (i ∈ densityQueueList data isBg w h c))) ∧
    (∀ i, (densityShadowCleanup data isBg w h c).1 i = densityIter data w h c 5 isBg i) ∧
    (∀ n acc, densityQueueList data isBg w h c = [] →
      densityLoop data w h c n isBg acc = (isBg, acc)) := by
  refine ⟨fun i => commitList_apply _ isBg i, ?_, ?_⟩
  · intro i
    rw [show (densityShadowCleanup data isBg w h c).1 = densityIter data w h c 5 isBg from
      densityLoop_eq_iter data w h c 5 isBg 0]
  · intro n acc hq
    cases n with
    | zero => rfl
    | succ n => simp [densityLoop, hq]

lemma applyEdgeSmoothing_rgb (data : Nat → Nat) (isBg : Nat → Bool) (w h c : Nat)
    (hc : 3 < c) (k : Nat) (hk : k % c ≠ 3) :
    (applyEdgeSmoothing data isBg w h c).1 k = data k := by
  obtain ⟨hf1, hf2, hf3⟩ := smoothFold_spec data isBg w h c (by omega) (w * h) 0 data 0
  have hrw : applyEdgeSmoothing data isBg w h c =
      (List.range' 0 (w * h)).foldl (smoothStep isBg w h c) (data, 0) := by
    unfold applyEdgeSmoothing
    rw [List.range_eq_range']
  rw [hrw]
  apply hf1
  intro i hi1 hi2 heq
  apply hk
  rw [heq, Nat.add_comm, Nat.add_mul_mod_self_right, Nat.mod_eq_of_lt (by omega)]

/-- C8: no pixel stage writes a red, green or blue byte.  With the
4-channel RGBA layout produced by `ensureAlpha`, every byte whose offset
within its pixel is not 3 is unchanged by the whole mask-and-feather
pipeline (first conjunct); and the pipeline's output buffer is exactly the
buffer `applyEdgeSmoothing` produces from the *original* decoded buffer —
flood fill, shadow cleanup and blob selection return masks and counters
only and never touch the raster (second conjunct, definitional in the
embedding because those stages take no buffer to write). -/
theorem pipeline_rgb_preserved (data : Nat → Nat) (w h c : Nat) (hc : c = 4) :
    (∀ k, k % c ≠ 3 → (removeBackgroundCore data w h c).1 k = data k) ∧
    (removeBackgroundCore data w h c).1 =
      (applyEdgeSmoothing data (removeBackgroundCore data w h c).2.1 w h c).1 := by
  subst hc
  refine ⟨?_, rfl⟩
  intro k hk
  exact applyEdgeSmoothing_rgb data _ w h 4 (by omega) k hk

/-- Witness for `pipeline_rgb_preserved` on a 1-by-1 backdrop image. -/
theorem pipeline_rgb_preserved_witness :
    (4 = 4) ∧
      ((∀ k, k % 4 ≠ 3 → (removeBackgroundCore (fun _ => 112) 1 1 4).1 k = 112) ∧
      (removeBackgroundCore (fun _ => 112) 1 1 4).1 =
        (applyEdgeSmoothing (fun _ => 112) (removeBackgroundCore (fun _ => 112) 1 1 4).2.1
          1 1 4).1) :=
  ⟨rfl, pipeline_rgb_preserved (fun _ => 112) 1 1 4 rfl⟩

lemma blobScan_allbg (isBg : Nat → Bool) (w h : Nat) :
    ∀ (l : List Nat) (B : Nat → Int) (sizes : List Nat),
      (∀ i ∈ l, isBg i = true) → blobScan isBg w h l B sizes = (B, sizes) := by
  intro l
  induction l with
  | nil =>
    intro B sizes hall
    rfl
  | cons a l ih =>
    intro B sizes hall
    rw [show blobScan isBg w h (a :: l) B sizes = blobScan isBg w h l B sizes by
      simp [blobScan, hall a (List.mem_cons_self a l)]]
    exact ih B sizes (fun i hi => hall i (List.mem_cons_of_mem a hi))

/-- C9: on a mask covering every pixel (zero foreground components),
`keepLargestBlob` returns 0 and leaves the mask untouched, the
edge-smoothing stage sets every pixel's alpha byte to 0, and
`removeBackground` still reports success — the pixel stages are total
functions, so nothing can fail on an empty foreground. -/
theorem allBackground_spec (data : Nat → Nat) (isBg : Nat → Bool) (w h : Nat)
    (hall : ∀ i, i < w * h → isBg i = true) :
    (keepLargestBlob isBg w h).2 = 0 ∧
    (∀ i, (keepLargestBlob isBg w h).1 i = isBg i) ∧
    (∀ i, i < w * h → (applyEdgeSmoothing data isBg w h 4).1 (i * 4 + 3) = 0) ∧
    (removeBackground data w h 4).success = true := by
  have hscan : blobScan isBg w h (List.range (w * h)) (fun _ => (-1 : Int)) [] =
      ((fun _ => (-1 : Int)), []) :=
    blobScan_allbg isBg w h _ _ _ (fun i hi => hall i (List.mem_range.mp hi))
  have hklb : keepLargestBlob isBg w h = (isBg, 0) := by
    simp [keepLargestBlob, hscan]
  refine ⟨by rw [hklb], fun i => by rw [hklb], ?_, rfl⟩
  intro i hi
  obtain ⟨hf1, hf2, hf3⟩ := smoothFold_spec data isBg w h 4 (by omega) (w * h) 0 data 0
  have hrw : applyEdgeSmoothing data isBg w h 4 =
      (List.range' 0 (w * h)).foldl (smoothStep isBg w h 4) (data, 0) := by
    unfold applyEdgeSmoothing
    rw [List.range_eq_range']
  rw [hrw, hf2 i (by omega) (by omega), if_pos (hall i hi)]

/-- Witness for `allBackground_spec` on a 1-by-1 all-background mask. -/
theorem allBackground_spec_witness :
    (∀ i, i < 1 * 1 → (fun _ : Nat => true) i = true) ∧
      ((keepLargestBlob (fun _ => true) 1 1).2 = 0 ∧
      (∀ i, (keepLargestBlob (fun _ => true) 1 1).1 i = (fun _ : Nat => true) i) ∧
      (∀ i, i < 1 * 1 →
        (applyEdgeSmoothing (fun _ => 112) (fun _ => true) 1 1 4).1 (i * 4 + 3) = 0) ∧
      (removeBackground (fun _ => 112) 1 1 4).success = true) :=
  ⟨fun i _ => rfl, allBackground_spec (fun _ => 112) (fun _ => true) 1 1 (fun i _ => rfl)⟩

/-- The counter of the alpha loop alone, for any channel count. -/
lemma smoothFold_count (data : Nat → Nat) (isBg : Nat → Bool) (w h c : Nat) :
    ∀ n s (d : Nat → Nat) (r : Nat),
      ((List.range' s n).foldl (smoothStep isBg w h c) (d, r)).2 =
        r + ((List.range' s n).filter (fun i => isBg i)).length := by
  intro n
  induction n with
  | zero =>
    intro s d r
    simp
  | succ n ih =>
    intro s d r
    rw [show List.range' s (n + 1) = s :: List.range' (s + 1) n from List.range'_succ s n 1]
    rw [List.foldl_cons]
    have hstep3 : (smoothStep isBg w h c (d, r) s).2 =
        r + (if isBg s = true then 1 else 0) := by
      unfold smoothStep
      split
      · simp
      · split
        · simp
        · simp
    have hfold : (List.range' (s + 1) n).foldl (smoothStep isBg w h c)
        (smoothStep isBg w h c (d, r) s) =
        (List.range' (s + 1) n).foldl (smoothStep isBg w h c)
          ((smoothStep isBg w h c (d, r) s).1, (smoothStep isBg w h c (d, r) s).2) := rfl
    rw [hfold, ih (s + 1) (smoothStep isBg w h c (d, r) s).1
      (smoothStep isBg w h c (d, r) s).2, hstep3, List.filter_cons]
    split
    · simp
      omega
    · omega

/-- Test raster, 5-by-5: backdrop grey everywhere except three isolated
bright pixels at (1,1), (3,1) and (1,3) (linear indices 6, 8, 16). -/
def c10data : Nat → Nat := fun k =>
  if k / 4 = 6 ∨ k / 4 = 8 ∨ k / 4 = 16 then 250 else 112

/-- C10: `removedPixels` counts every mask-true pixel of the mask handed
to `applyEdgeSmoothing` — in the pipeline that mask already contains every
pixel reclassified by `densityShadowCleanup` and `keepLargestBlob`, so
`allRemoved = removedPixels + extraRemoved + shadowCleaned` counts those
pixels twice (first conjunct: the count identity; second and third
conjuncts: on the concrete 5-by-5 image the sum exceeds the pixel count,
and the reported `percentRemoved` exceeds 100). -/
theorem removedPixels_overcount :
    (∀ (data : Nat → Nat) (isBg : Nat → Bool) (w h c : Nat),
      (applyEdgeSmoothing data isBg w h c).2 =
        ((List.range (w * h)).filter (fun i => isBg i)).length) ∧
    25 < (removeBackgroundCore c10data 5 5 4).2.2.1 +
        (removeBackgroundCore c10data 5 5 4).2.2.2.1 +
        (removeBackgroundCore c10data 5 5 4).2.2.2.2 ∧
    (removeBackground c10data 5 5 4).percentRemoved > 100 := by
  refine ⟨?_, ?_, ?_⟩
  · intro data isBg w h c
    have hrw : applyEdgeSmoothing data isBg w h c =
        (List.range' 0 (w * h)).foldl (smoothStep isBg w h c) (data, 0) := by
      unfold applyEdgeSmoothing
      rw [List.range_eq_range']
    rw [hrw, smoothFold_count data isBg w h c (w * h) 0 data 0, List.range_eq_range']
    omega
  · decide
  · have hsum : (removeBackgroundCore c10data 5 5 4).2.2.1 +
        (removeBackgroundCore c10data 5 5 4).2.2.2.1 +
        (removeBackgroundCore c10data 5 5 4).2.2.2.2 = 26 := by decide
    simp only [removeBackground]
    rw [hsum]
    norm_num
